import Mathlib

/-!
Verification of the MentalGL string-buffer and report-printing engine
(`mental_gl.h`).  The C code is shallowly embedded: bytes are `Nat`,
buffers are lists, `size_t` arithmetic is `Nat` arithmetic (no relevant
overflow occurs in the embedded paths), and a `NULL` pointer is `none`.
-/

-- ***************************************************************
--      Constants (mental_gl.h, internal macros)
-- ***************************************************************

/-- MGL_STRING_MIN_CAPACITY (line 427). -/
def MGL_STRING_MIN_CAPACITY : Nat := 16

/-- MGL_STRING_NPOS = `(size_t)~0` (line 428). -/
def MGL_STRING_NPOS : Nat := 2 ^ 64 - 1

/-- MGL_MAX_NUM_RENDER_STATES (line 430). -/
def MGL_MAX_NUM_RENDER_STATES : Nat := 264

-- ***************************************************************
--      Raw memory helpers (model of memcpy / fill loops)
-- ***************************************************************

/-- `memcpy(dst + off, src, src.length)` on a byte array modelled as a list.
Writes that would land beyond the end of `dst` are dropped (they never
occur in the embedded code, which always resizes first). -/
def mglMemWrite : List Nat → Nat → List Nat → List Nat
  | dst, _, [] => dst
  | [], _, _ :: _ => []
  | _ :: ds, 0, s :: ss => s :: mglMemWrite ds 0 ss
  | d :: ds, off + 1, src => d :: mglMemWrite ds off src

/-- `for (k = i; k < j; ++k) b[k] = c;` on a byte array modelled as a list. -/
def mglSetRange : List Nat → Nat → Nat → Nat → List Nat
  | [], _, _, _ => []
  | x :: xs, i, j, c =>
    match i, j with
    | _, 0 => x :: xs
    | 0, j' + 1 => c :: mglSetRange xs 0 j' c
    | i' + 1, j' + 1 => x :: mglSetRange xs i' j' c

/-- Byte list of a Lean string literal (used only to state theorems). -/
def strBytes (s : String) : List Nat := s.data.map Char.toNat

-- ***************************************************************
--      MGLStringInternal (lines 444-450) and its operations
-- ***************************************************************

/-- `MGLStringInternal` (line 444): capacity, length, buffer.
`buf = none` models a `NULL` buffer pointer; `some b` models an
allocation whose bytes are `b` (so `b.length` is the allocated size). -/
structure MGLStringInternal where
  cap : Nat
  len : Nat
  buf : Option (List Nat)
deriving DecidableEq

/-- The allocated bytes of a buffer (empty for a `NULL` buffer). -/
def bufBytes (s : MGLStringInternal) : List Nat := s.buf.getD []

/-- The string held by a buffer: its first `len` bytes. -/
def mglStringContents (s : MGLStringInternal) : List Nat := (bufBytes s).take s.len

/-- mglStringInternalReset (line 469): cap = 0, len = 0, buf = NULL. -/
def mglStringInternalReset : MGLStringInternal := ⟨0, 0, none⟩

/-- mglStringInternalInit (line 480): calloc of `max MIN_CAPACITY init_cap`
zeroed bytes, length 0, `buf[0] = 0` (already true after calloc). -/
def mglStringInternalInit (init_cap : Nat) : MGLStringInternal :=
  let c := max MGL_STRING_MIN_CAPACITY init_cap
  ⟨c, 0, some (List.replicate c 0)⟩

/-- mglStringInternalInitWith (line 492) applied to a non-NULL C string
`val` (given as its byte list): calloc, memcpy, terminating zero. -/
def mglStringInternalInitWith (val : List Nat) : MGLStringInternal :=
  let len := val.length
  let c := max MGL_STRING_MIN_CAPACITY (len + 1)
  ⟨c, len, some ((mglMemWrite (List.replicate c 0) 0 val).set len 0)⟩

/-- mglStringInternalResize (line 546).  Note that in the in-place shrink
branch (line 587) the source sets the new terminator but does not update
`s->len`; the embedding reproduces that. -/
def mglStringInternalResize (s : MGLStringInternal) (len : Nat) (chr : Nat) :
    MGLStringInternal :=
  if len + 1 > s.cap then
    let new_cap := max (len + 1) (s.cap * 2)
    let b0 := mglMemWrite (List.replicate new_cap 0) 0 ((bufBytes s).take s.len)
    let b1 := if chr ≠ 0 then mglSetRange b0 s.len len chr else b0
    ⟨new_cap, len, some (b1.set len 0)⟩
  else if len < s.len then
    if s.cap > MGL_STRING_MIN_CAPACITY ∧ len < s.cap / 2 then
      let new_cap := max MGL_STRING_MIN_CAPACITY (s.cap / 2)
      let b0 := mglMemWrite (List.replicate new_cap 0) 0 ((bufBytes s).take len)
      ⟨new_cap, len, some (b0.set len 0)⟩
    else
      ⟨s.cap, s.len, some ((bufBytes s).set len 0)⟩
  else if len > s.len then
    let b0 := if chr ≠ 0 then mglSetRange (bufBytes s) s.len len chr else bufBytes s
    ⟨s.cap, len, some (b0.set len 0)⟩
  else s

/-- mglStringInternalAppend (line 607). -/
def mglStringInternalAppend (s appendix : MGLStringInternal) : MGLStringInternal :=
  if appendix.len > 0 then
    let lhs_len := s.len
    let s' := mglStringInternalResize s (lhs_len + appendix.len) 0
    { s' with buf := some (mglMemWrite (bufBytes s') lhs_len
        ((bufBytes appendix).take appendix.len)) }
  else s

/-- mglStringInternalAppendSub (line 620). -/
def mglStringInternalAppendSub (s appendix : MGLStringInternal) (off len : Nat) :
    MGLStringInternal :=
  if appendix.len > off ∧ len > 0 then
    let lhs_len := s.len
    let rhs_len := min len (appendix.len - off)
    if rhs_len > 0 then
      let s' := mglStringInternalResize s (lhs_len + rhs_len) 0
      { s' with buf := some (mglMemWrite (bufBytes s') lhs_len
          (((bufBytes appendix).drop off).take rhs_len)) }
    else s
  else s

/-- mglStringInternalAppendCStr (line 636) applied to a C string given as
its byte list (the `*appendix != 0` guard is the nonemptiness test). -/
def mglStringInternalAppendCStr (s : MGLStringInternal) (appendix : List Nat) :
    MGLStringInternal :=
  if appendix ≠ [] then
    let lhs_len := s.len
    let rhs_len := appendix.length
    let s' := mglStringInternalResize s (lhs_len + rhs_len) 0
    { s' with buf := some (mglMemWrite (bufBytes s') lhs_len appendix) }
  else s

/-- The scan loop of mglStringInternalFindChar: starting at `off`, scan up
to `stop` (exclusive); `fuel` bounds the number of iterations (the call
below supplies enough). -/
def mglFindCharLoop (b : List Nat) (c : Nat) : Nat → Nat → Nat → Nat
  | _, _, 0 => MGL_STRING_NPOS
  | off, stop, fuel + 1 =>
    if off < stop then
      if b.getD off 0 = c then off else mglFindCharLoop b c (off + 1) stop fuel
    else MGL_STRING_NPOS

/-- mglStringInternalFindChar (line 648): `len = min len s.len`, then scan
`buf[off..len)` for `search_char`, returning MGL_STRING_NPOS on failure. -/
def mglStringInternalFindChar (s : MGLStringInternal) (search_char off len : Nat) : Nat :=
  let stop := min len s.len
  mglFindCharLoop (bufBytes s) search_char off stop (stop + 1)

example : mglStringContents (mglStringInternalInitWith (strBytes ("AB"))) = strBytes ("AB") := by decide
example : (mglStringInternalInitWith (strBytes ("AB"))).cap = 16 := by decide
example : mglStringContents (mglStringInternalAppendCStr
    (mglStringInternalInitWith (strBytes ("AB"))) (strBytes ("CD"))) = strBytes ("ABCD") := by decide
example : mglStringInternalFindChar (mglStringInternalInitWith (strBytes ("ab,cd"))) 44 0
    MGL_STRING_NPOS = 2 := by decide
example : mglStringInternalFindChar (mglStringInternalInitWith (strBytes ("ab,cd"))) 44 3
    MGL_STRING_NPOS = MGL_STRING_NPOS := by decide

-- ***************************************************************
--      C string search and comparison (strstr / strcmp semantics)
-- ***************************************************************

/-- `strstr(hay, needle) != NULL`: scan every suffix of `hay` for `needle`
as a prefix (C strings given as byte lists). -/
def mglStrstr : List Nat → List Nat → Bool
  | _, [] => true
  | [], _ :: _ => false
  | h :: hs, n :: ns => List.isPrefixOf (n :: ns) (h :: hs) || mglStrstr hs (n :: ns)

/-- `strcmp` on C strings given as byte lists; the end of a list acts as
the terminating NUL, and an interior 0 byte ends the comparison, exactly
as for C strings. -/
def strcmp : List Nat → List Nat → Int
  | [], [] => 0
  | [], b :: _ => if b = 0 then 0 else -(b : Int)
  | a :: _, [] => if a = 0 then 0 else (a : Int)
  | a :: as, b :: bs =>
    if a = b then (if a = 0 then 0 else strcmp as bs) else (a : Int) - (b : Int)

/-- mglCompareOutputPair (line 1494), expressed on the two name keys the
comparator reads through `g_MGLOutputParamas`: a key is the `buf` pointer
of a record name (`none` = NULL).  A NULL name compares after any
present name. -/
def mglCompareOutputPair (lhs rhs : Option (List Nat)) : Int :=
  match lhs, rhs with
  | some ls, some rs => strcmp ls rs
  | some _, none => -1
  | none, _ => 1

-- ***************************************************************
--      Sorting (model of the qsort call at line 2053)
-- ***************************************************************

/-- Insert an index into a sorted index list, comparing with
mglCompareOutputPair on the keys (the `cmp ≤ 0` test is the ordering a
conforming qsort realises). -/
def mglSortInsert (key : Nat → Option (List Nat)) (i : Nat) : List Nat → List Nat
  | [] => [i]
  | j :: js =>
    if mglCompareOutputPair (key i) (key j) ≤ 0 then i :: j :: js
    else j :: mglSortInsert key i js

/-- The index permutation produced by the qsort call (line 2053), modelled
as an insertion sort of the live indices by mglCompareOutputPair.  (The
source sorts all MGL_MAX_NUM_RENDER_STATES slots; the unused slots have
NULL name keys, which the comparator places after every live record, so
the first `index` entries of the sorted array are exactly the live
indices in comparator order.) -/
def mglSortIndices (key : Nat → Option (List Nat)) (l : List Nat) : List Nat :=
  l.foldr (mglSortInsert key) []

-- ***************************************************************
--      Formatting options (lines 80-89) and the record table
-- ***************************************************************

/-- enum MGLFormattingOrder (line 65). -/
inductive MGLFormattingOrder where
  | MGLFormattingOrderDefault
  | MGLFormattingOrderSorted
deriving DecidableEq

export MGLFormattingOrder (MGLFormattingOrderDefault MGLFormattingOrderSorted)

/-- MGLFormattingOptions (line 80).  `filter = none` models a NULL filter
pointer; `enable_hex` keeps the C `int` convention (enabled iff nonzero). -/
structure MGLFormattingOptions where
  separator : Nat
  distance : Nat
  array_limit : Nat
  order : MGLFormattingOrder
  enable_hex : Nat
  filter : Option (List Nat)

/-- The default options `{ ' ', 1, 200, MGLFormattingOrderDefault, 1, NULL }`
(line 2111). -/
def mglFormattingDefault : MGLFormattingOptions :=
  ⟨32, 1, 200, MGLFormattingOrderDefault, 1, none⟩

/-- MGLStringPairArray (line 452): the two parallel arrays, grown one
record at a time; `index` is the length of either list.  Slots past the
end read as the memset-zero record `⟨0, 0, none⟩`. -/
structure MGLStringPairArray where
  first : List MGLStringInternal
  second : List MGLStringInternal

/-- mglNextHeadline (line 705): the name is InitWith'd, the value is Reset
(NULL buffer) — that absent value is what makes the record a headline. -/
def mglNextHeadline (arr : MGLStringPairArray) (headline : List Nat) : MGLStringPairArray :=
  ⟨arr.first ++ [mglStringInternalInitWith headline],
   arr.second ++ [mglStringInternalReset]⟩

/-- mglNextParamString (line 712). -/
def mglNextParamString (arr : MGLStringPairArray) (par val : List Nat) : MGLStringPairArray :=
  ⟨arr.first ++ [mglStringInternalInitWith par],
   arr.second ++ [mglStringInternalInitWith val]⟩

-- ***************************************************************
--      Value formatting: hex, enum, bitfield
-- ***************************************************************

/-- One uppercase hex digit. -/
def mglHexDigit (d : Nat) : Nat := if d < 10 then 48 + d else 55 + d

/-- Digit-accumulation loop for `%X` (fuel-bounded division loop; `n`
itself is ample fuel). -/
def mglHexDigitsAux : Nat → Nat → List Nat → List Nat
  | 0, _, acc => acc
  | _, 0, acc => acc
  | fuel + 1, m, acc => mglHexDigitsAux fuel (m / 16) (mglHexDigit (m % 16) :: acc)

/-- The digits `%X` prints for `n` (uppercase, no padding; "0" for 0). -/
def mglHexDigits (n : Nat) : List Nat :=
  if n = 0 then [48] else mglHexDigitsAux n n []

/-- The loop of mglEnumToHex (line 701): overwrite leading spaces with
'0', stopping at the first non-space. -/
def mglSpacesToZeros : List Nat → List Nat
  | [] => []
  | x :: xs => if x = 32 then 48 :: mglSpacesToZeros xs else x :: xs

/-- mglEnumToHex (line 698): `sprintf(s, "0x%*X", 8, val)` produces "0x"
followed by the hex digits right-aligned in 8 columns with space padding;
the loop then turns those leading spaces into '0'. -/
def mglEnumToHex (val : Nat) : List Nat :=
  let digits := mglHexDigits val
  48 :: 120 :: mglSpacesToZeros (List.replicate (8 - digits.length) 32 ++ digits)

/-- The value text chosen by mglNextParamEnum (line 745): the resolver's
name if any, else mglEnumToHex — unconditionally, with no consultation of
the `enable_hex` option (which this function does not even receive). -/
def mglNextParamEnumValue (proc : Nat → Option (List Nat)) (val : Nat) : List Nat :=
  match proc val with
  | none => mglEnumToHex val
  | some s_val => s_val

/-- mglNextParamEnum (line 745). -/
def mglNextParamEnum (arr : MGLStringPairArray) (par : List Nat) (val : Nat)
    (proc : Nat → Option (List Nat)) : MGLStringPairArray :=
  mglNextParamString arr par (mglNextParamEnumValue proc val)

/-- The value string built by mglNextParamBitfield (line 884): fold over
bits `0..count-1`; a set bit appends `" | "` (if not first), then the
resolver's name for the flag, or — per line 907 — the hex form of the
WHOLE bitfield `val` when the resolver returns NULL; "0" if no bit set. -/
def mglNextParamBitfieldVal (val count : Nat) (proc : Nat → Option (List Nat)) :
    MGLStringInternal :=
  let r := (List.range count).foldl
    (fun (p : MGLStringInternal × Nat) i =>
      let flag := 2 ^ i
      if val &&& flag ≠ 0 then
        let o1 := if p.2 > 0 then mglStringInternalAppendCStr p.1 (strBytes (" | ")) else p.1
        let o2 := match proc flag with
          | none => mglStringInternalAppendCStr o1 (mglEnumToHex val)
          | some s_val => mglStringInternalAppendCStr o1 s_val
        (o2, p.2 + 1)
      else p)
    (mglStringInternalInit 0, 0)
  if r.2 = 0 then mglStringInternalAppendCStr r.1 [48] else r.1

/-- mglNextParamBitfield (line 884). -/
def mglNextParamBitfield (arr : MGLStringPairArray) (par : List Nat) (val count : Nat)
    (proc : Nat → Option (List Nat)) : MGLStringPairArray :=
  ⟨arr.first ++ [mglStringInternalInitWith par],
   arr.second ++ [mglNextParamBitfieldVal val count proc]⟩

example : mglEnumToHex 255 = strBytes ("0x000000FF") := by decide
example : mglEnumToHex 0 = strBytes ("0x00000000") := by decide
example : mglEnumToHex 305419896 = strBytes ("0x12345678") := by decide
example : mglStrstr (strBytes ("GL_TEXTURE_BINDING_2D")) (strBytes ("TEX")) = true := by decide
example : mglStrstr (strBytes ("GL_BLEND")) (strBytes ("TEX")) = false := by decide
example : strcmp (strBytes ("A")) (strBytes ("Z")) < 0 := by decide
example : mglStringContents (mglNextParamBitfieldVal 0 4 (fun _ => none)) = strBytes ("0") := by
  decide
example : mglStringContents (mglNextParamBitfieldVal 3 2 (fun _ => none)) =
    strBytes ("0x00000003 | 0x00000003") := by decide

-- ***************************************************************
--      mglPrintStringPairs (line 2013)
-- ***************************************************************

/-- The memset-zero slot of the fixed-size pair arrays (line 2121). -/
def mglZeroSlot : MGLStringInternal := ⟨0, 0, none⟩

/-- The filter test of lines 2020/2031/2061:
`filter == NULL || strstr(name.buf, filter) != NULL`. -/
def mglIncluded (formatting : MGLFormattingOptions) (name : MGLStringInternal) : Bool :=
  match formatting.filter with
  | none => true
  | some flt => mglStrstr (mglStringContents name) flt

/-- Lines 2016-2024: the column width `max_par_len`: maximum `len` over
all records passing the filter (headlines included — the source makes no
distinction), plus `formatting->distance`. -/
def mglMaxParLen (out : MGLStringPairArray) (formatting : MGLFormattingOptions) : Nat :=
  ((List.range out.first.length).foldl
    (fun acc i =>
      if mglIncluded formatting (out.first.getD i mglZeroSlot) then
        max acc (out.first.getD i mglZeroSlot).len
      else acc) 0) + formatting.distance

/-- Lines 2027-2038: the capacity estimate for the output string. -/
def mglOutCap (out : MGLStringPairArray) (formatting : MGLFormattingOptions)
    (max_par_len : Nat) : Nat :=
  (List.range out.first.length).foldl
    (fun acc i =>
      if mglIncluded formatting (out.first.getD i mglZeroSlot) then
        acc + (out.first.getD i mglZeroSlot).len
            + (max_par_len - (out.first.getD i mglZeroSlot).len)
            + (out.second.getD i mglZeroSlot).len + 1
      else acc) 0

/-- Lines 2044-2054: the emission order.  Identity for the default order;
for MGLFormattingOrderSorted, the qsort of the index permutation by
mglCompareOutputPair (see mglSortIndices). -/
def mglOutPermutation (out : MGLStringPairArray) (formatting : MGLFormattingOptions) :
    List Nat :=
  if formatting.order = MGLFormattingOrderSorted then
    mglSortIndices (fun i => (out.first.getD i mglZeroSlot).buf)
      (List.range out.first.length)
  else List.range out.first.length

/-- The wrapping loop of lines 2074-2092.  `fuel` bounds the iteration
count (each pass advances `off` by at least one, so `cur_val.len + 1` is
always enough); the loop body is a verbatim transcription. -/
def mglWrapLoop (formatting : MGLFormattingOptions) (cur_par cur_val : MGLStringInternal)
    (cur_spaces_len : Nat) : Nat → MGLStringInternal → Nat → MGLStringInternal
  | 0, s, _ => s
  | fuel + 1, s, off =>
    if off < cur_val.len then
      let next_off := mglStringInternalFindChar cur_val 44 off MGL_STRING_NPOS
      if next_off ≠ MGL_STRING_NPOS then
        let s1 := mglStringInternalAppendSub s cur_val off (next_off - off + 1)
        let s2 := mglStringInternalAppendCStr s1 [10]
        let s3 := mglStringInternalResize s2
          (s2.len + cur_par.len + cur_spaces_len + 1) formatting.separator
        mglWrapLoop formatting cur_par cur_val cur_spaces_len fuel s3 (next_off + 1)
      else
        mglStringInternalAppendSub s cur_val off MGL_STRING_NPOS
    else s

/-- The body of the emission loop (lines 2063-2097) for one record that
passed the filter: append the name, pad with the separator up to the
column width, append the value (wrapped when longer than `array_limit`
and ending in '}'), then a newline. -/
def mglEmitRecord (formatting : MGLFormattingOptions) (max_par_len : Nat)
    (cur_par cur_val s : MGLStringInternal) : MGLStringInternal :=
  let cur_spaces_len := max_par_len - cur_par.len
  let s1 := mglStringInternalAppend s cur_par
  let s2 := mglStringInternalResize s1 (s1.len + cur_spaces_len) formatting.separator
  let s3 :=
    if cur_val.len > formatting.array_limit ∧ (bufBytes cur_val).getD (cur_val.len - 1) 0 = 125
    then mglWrapLoop formatting cur_par cur_val cur_spaces_len (cur_val.len + 1) s2 0
    else mglStringInternalAppend s2 cur_val
  mglStringInternalAppendCStr s3 [10]

/-- mglPrintStringPairs (line 2013): measure, allocate, order, and emit.
(The final frees of the record strings have no observable effect in the
pure embedding.) -/
def mglPrintStringPairs (out : MGLStringPairArray) (formatting : MGLFormattingOptions) :
    MGLStringInternal :=
  let max_par_len := mglMaxParLen out formatting
  let s0 := mglStringInternalInit (mglOutCap out formatting max_par_len)
  (mglOutPermutation out formatting).foldl
    (fun s i =>
      if mglIncluded formatting (out.first.getD i mglZeroSlot) then
        mglEmitRecord formatting max_par_len
          (out.first.getD i mglZeroSlot) (out.second.getD i mglZeroSlot) s
      else s) s0

example :
    mglStringContents (mglPrintStringPairs
      (mglNextParamString (mglNextParamString ⟨[], []⟩ (strBytes ("AA")) (strBytes ("1")))
        (strBytes ("B")) (strBytes ("22")))
      mglFormattingDefault) = strBytes ("AA 1\nB  22\n") := by decide

-- ***************************************************************
--      Lemmas about the raw memory helpers
-- ***************************************************************

theorem mglMemWrite_length (d : List Nat) : ∀ (off : Nat) (src : List Nat),
    (mglMemWrite d off src).length = d.length := by
  induction d with
  | nil => intro off src; cases src <;> simp [mglMemWrite]
  | cons x ds ih =>
    intro off src
    cases src with
    | nil => simp [mglMemWrite]
    | cons s ss =>
      cases off with
      | zero => simp [mglMemWrite, ih]
      | succ o => simp [mglMemWrite, ih]

theorem mglMemWrite_take (d : List Nat) : ∀ (off : Nat) (src : List Nat),
    (mglMemWrite d off src).take off = d.take off := by
  induction d with
  | nil => intro off src; cases src <;> simp [mglMemWrite]
  | cons x ds ih =>
    intro off src
    cases src with
    | nil => simp [mglMemWrite]
    | cons s ss =>
      cases off with
      | zero => simp [mglMemWrite]
      | succ o => simp [mglMemWrite, ih]

theorem mglMemWrite_drop (d : List Nat) : ∀ (off : Nat) (src : List Nat),
    off + src.length ≤ d.length →
    (mglMemWrite d off src).drop off = src ++ d.drop (off + src.length) := by
  induction d with
  | nil =>
    intro off src h
    cases src with
    | nil => simp [mglMemWrite]
    | cons s ss => simp at h
  | cons x ds ih =>
    intro off src h
    cases src with
    | nil => simp [mglMemWrite]
    | cons s ss =>
      cases off with
      | zero =>
        simp only [mglMemWrite, List.drop_zero, List.cons_append]
        have := ih 0 ss (by simp at h ⊢; omega)
        simpa using this
      | succ o =>
        simp only [mglMemWrite, List.drop_succ_cons]
        have := ih o (s :: ss) (by simp at h ⊢; omega)
        simpa [Nat.succ_add] using this

theorem mglMemWrite_getD_ge (d : List Nat) : ∀ (off : Nat) (src : List Nat) (k : Nat),
    off + src.length ≤ k → (mglMemWrite d off src).getD k 0 = d.getD k 0 := by
  induction d with
  | nil => intro off src k h; cases src <;> simp [mglMemWrite]
  | cons x ds ih =>
    intro off src k h
    cases src with
    | nil => simp [mglMemWrite]
    | cons s ss =>
      cases off with
      | zero =>
        cases k with
        | zero => simp at h
        | succ k' => simpa [mglMemWrite] using ih 0 ss k' (by simp at h ⊢; omega)
      | succ o =>
        cases k with
        | zero => simp at h
        | succ k' => simpa [mglMemWrite] using ih o (s :: ss) k' (by simp at h ⊢; omega)

theorem mglSetRange_length (b : List Nat) : ∀ (i j c : Nat),
    (mglSetRange b i j c).length = b.length := by
  induction b with
  | nil => intro i j c; simp [mglSetRange]
  | cons x xs ih =>
    intro i j c
    cases j with
    | zero => simp [mglSetRange]
    | succ j' =>
      cases i with
      | zero => simp [mglSetRange, ih]
      | succ i' => simp [mglSetRange, ih]

theorem mglSetRange_eq (b : List Nat) : ∀ (i j c : Nat), i ≤ j → j ≤ b.length →
    mglSetRange b i j c = b.take i ++ List.replicate (j - i) c ++ b.drop j := by
  induction b with
  | nil => intro i j c hij hj; simp at hj; simp [mglSetRange, hj]
  | cons x xs ih =>
    intro i j c hij hj
    cases j with
    | zero =>
      have : i = 0 := by omega
      simp [mglSetRange, this]
    | succ j' =>
      cases i with
      | zero =>
        simp only [mglSetRange, List.take_zero, List.nil_append, List.drop_succ_cons]
        rw [ih 0 j' c (by omega) (by simpa using hj)]
        simp [List.replicate_succ]
      | succ i' =>
        simp only [mglSetRange, List.take_succ_cons, List.drop_succ_cons]
        rw [ih i' j' c (by omega) (by simpa using hj)]
        simp

theorem mglTake_set (b : List Nat) : ∀ (m v k : Nat), k ≤ m →
    (b.set m v).take k = b.take k := by
  induction b with
  | nil => intro m v k _; simp
  | cons x xs ih =>
    intro m v k hk
    cases m with
    | zero =>
      have : k = 0 := by omega
      simp [this]
    | succ m' =>
      cases k with
      | zero => simp
      | succ k' => simp [List.set_cons_succ, ih m' v k' (by omega)]

theorem mglGetD_set_eq (b : List Nat) (m v : Nat) (h : m < b.length) :
    (b.set m v).getD m 0 = v := by
  simp [List.getD_eq_getElem?_getD, List.getElem?_set, h]

theorem mglGetD_set_ne (b : List Nat) (m v k : Nat) (h : k ≠ m) :
    (b.set m v).getD k 0 = b.getD k 0 := by
  simp only [List.getD_eq_getElem?_getD, List.getElem?_set]
  rw [if_neg (by omega)]

-- ***************************************************************
--      Well-formedness of buffers
-- ***************************************************************

/-- A live buffer: the allocation matches `cap` and holds at least the
`len` string bytes plus the terminator. -/
def MGLwf (s : MGLStringInternal) : Prop :=
  (bufBytes s).length = s.cap ∧ s.len < s.cap

/-- MGLwf plus the terminator invariant `buf[len] == 0`. -/
def MGLinv (s : MGLStringInternal) : Prop :=
  MGLwf s ∧ (bufBytes s).getD s.len 0 = 0

instance (s : MGLStringInternal) : Decidable (MGLwf s) := by unfold MGLwf; infer_instance
instance (s : MGLStringInternal) : Decidable (MGLinv s) := by unfold MGLinv; infer_instance

theorem mglStringInternalInit_inv (c : Nat) : MGLinv (mglStringInternalInit c) := by
  refine ⟨⟨by simp [mglStringInternalInit, bufBytes],
    by simp [mglStringInternalInit, MGL_STRING_MIN_CAPACITY]⟩, ?_⟩
  simp [mglStringInternalInit, bufBytes, List.getD_eq_getElem?_getD, List.getElem?_replicate,
    MGL_STRING_MIN_CAPACITY]

theorem mglStringContents_length (s : MGLStringInternal) (h : s.len ≤ (bufBytes s).length) :
    (mglStringContents s).length = s.len := by
  simp [mglStringContents]; omega

theorem mglStringInternalInitWith_len (v : List Nat) :
    (mglStringInternalInitWith v).len = v.length := rfl

theorem mglStringInternalInitWith_inv (v : List Nat) : MGLinv (mglStringInternalInitWith v) := by
  have hlen : ((mglMemWrite (List.replicate (max MGL_STRING_MIN_CAPACITY (v.length + 1)) 0) 0
      v).set v.length 0).length = max MGL_STRING_MIN_CAPACITY (v.length + 1) := by
    simp [mglMemWrite_length]
  refine ⟨⟨?_, ?_⟩, ?_⟩
  · simpa [mglStringInternalInitWith, bufBytes] using hlen
  · simp only [mglStringInternalInitWith]
    omega
  · simp only [mglStringInternalInitWith, bufBytes, Option.getD_some]
    rw [mglGetD_set_eq]
    simp [mglMemWrite_length]

theorem mglStringInternalInitWith_contents (v : List Nat) :
    mglStringContents (mglStringInternalInitWith v) = v := by
  unfold mglStringContents mglStringInternalInitWith bufBytes
  simp only [Option.getD_some]
  rw [mglTake_set _ _ _ _ (le_refl _)]
  have := mglMemWrite_drop (List.replicate (max MGL_STRING_MIN_CAPACITY (v.length + 1)) 0) 0 v
    (by simp)
  simp only [List.drop_zero] at this
  rw [this]
  simp

-- ***************************************************************
--      Characterization of mglStringInternalResize on growth paths
-- ***************************************************************

theorem mglResize_eq_grow (s : MGLStringInternal) (L c : Nat) (hg : L + 1 > s.cap) :
    mglStringInternalResize s L c =
      ⟨max (L + 1) (s.cap * 2), L,
       some ((if c ≠ 0 then
           mglSetRange (mglMemWrite (List.replicate (max (L + 1) (s.cap * 2)) 0) 0
             ((bufBytes s).take s.len)) s.len L c
         else
           mglMemWrite (List.replicate (max (L + 1) (s.cap * 2)) 0) 0
             ((bufBytes s).take s.len)).set L 0)⟩ := by
  unfold mglStringInternalResize
  rw [if_pos hg]

theorem mglResize_eq_extend (s : MGLStringInternal) (L c : Nat) (hg : ¬ (L + 1 > s.cap))
    (hlt : s.len < L) :
    mglStringInternalResize s L c =
      ⟨s.cap, L,
       some ((if c ≠ 0 then mglSetRange (bufBytes s) s.len L c else bufBytes s).set L 0)⟩ := by
  unfold mglStringInternalResize
  rw [if_neg hg, if_neg (by omega : ¬ L < s.len), if_pos (by omega : L > s.len)]

theorem mglResize_id (s : MGLStringInternal) (c : Nat) (h : s.len + 1 ≤ s.cap) :
    mglStringInternalResize s s.len c = s := by
  unfold mglStringInternalResize
  rw [if_neg (by omega), if_neg (by omega), if_neg (by omega)]

theorem mglGetD_replicate_zero (n k : Nat) : (List.replicate n 0).getD k 0 = 0 := by
  simp only [List.getD_eq_getElem?_getD, List.getElem?_replicate, apply_ite]
  split <;> rfl

/-- The full description of `resize` when the length strictly grows: the
result is well-formed, the old string bytes are preserved, the new bytes
are the fill character (when it is nonzero), the capacity follows the
growth rule, and the terminator lands at the new length. -/
theorem mglStringInternalResize_extend_spec (s : MGLStringInternal) (L c : Nat)
    (hwf : MGLwf s) (hlt : s.len < L) :
    MGLwf (mglStringInternalResize s L c) ∧
    (mglStringInternalResize s L c).len = L ∧
    (mglStringInternalResize s L c).cap =
      (if L + 1 > s.cap then max (L + 1) (s.cap * 2) else s.cap) ∧
    (bufBytes (mglStringInternalResize s L c)).take s.len = mglStringContents s ∧
    (c ≠ 0 → ((bufBytes (mglStringInternalResize s L c)).drop s.len).take (L - s.len) =
      List.replicate (L - s.len) c) ∧
    (bufBytes (mglStringInternalResize s L c)).getD L 0 = 0 := by
  obtain ⟨hblen, hcap⟩ := hwf
  have hsl : s.len ≤ (bufBytes s).length := by omega
  have hA : ((bufBytes s).take s.len).length = s.len := by
    rw [List.length_take]; omega
  by_cases hg : L + 1 > s.cap
  · -- growth branch
    have hlen2 : (mglStringInternalResize s L c).len = L := by
      rw [mglResize_eq_grow s L c hg]
    have hcap2 : (mglStringInternalResize s L c).cap = max (L + 1) (s.cap * 2) := by
      rw [mglResize_eq_grow s L c hg]
    set cap' := max (L + 1) (s.cap * 2) with hcapdef
    have hLcap' : L + 1 ≤ cap' := le_max_left ..
    have hb0 : mglMemWrite (List.replicate cap' 0) 0 ((bufBytes s).take s.len) =
        (bufBytes s).take s.len ++ List.replicate (cap' - s.len) 0 := by
      have h1 := mglMemWrite_drop (List.replicate cap' 0) 0 ((bufBytes s).take s.len)
        (by rw [List.length_replicate, hA]; omega)
      simp only [List.drop_zero, Nat.zero_add, hA, List.drop_replicate] at h1
      exact h1
    have hbuf : bufBytes (mglStringInternalResize s L c) =
        (bufBytes s).take s.len ++
          (List.replicate (L - s.len) c ++ List.replicate (cap' - L) 0) := by
      rw [mglResize_eq_grow s L c hg]
      show ((if c ≠ 0 then _ else _) : List Nat).set L 0 = _
      by_cases hc : c = 0
      · rw [if_neg (by simp [hc]), hb0]
        rw [List.set_append, if_neg (by rw [hA]; omega), hA]
        rw [List.set_replicate_self]
        rw [show cap' - s.len = (L - s.len) + (cap' - L) by omega, List.replicate_add, hc]
      · rw [if_pos hc, hb0]
        rw [mglSetRange_eq _ _ _ _ (by omega) (by simp [hA]; omega)]
        rw [List.take_left' hA]
        rw [List.drop_append_eq_append_drop, List.drop_eq_nil_of_le (by rw [hA]; omega), hA,
          List.drop_replicate, List.nil_append]
        rw [show cap' - s.len - (L - s.len) = cap' - L by omega]
        rw [List.append_assoc, List.set_append, if_neg (by rw [hA]; omega), hA]
        rw [List.set_append, if_neg (by rw [List.length_replicate]; omega),
          List.length_replicate, Nat.sub_self, List.set_replicate_self]
    refine ⟨⟨?_, ?_⟩, hlen2, ?_, ?_, ?_, ?_⟩
    · rw [hbuf, hcap2]
      simp [hA]
      omega
    · rw [hlen2, hcap2]; omega
    · rw [hcap2, if_pos hg]
    · rw [hbuf, List.take_left' hA]
      rfl
    · intro _
      rw [hbuf, List.drop_left' hA, List.take_left' (by rw [List.length_replicate])]
    · rw [hbuf, List.getD_append_right _ _ _ _ (by rw [hA]; omega), hA,
        List.getD_append_right _ _ _ _ (by rw [List.length_replicate]),
        List.length_replicate, Nat.sub_self, mglGetD_replicate_zero]
  · -- in-place extension branch
    have hlen2 : (mglStringInternalResize s L c).len = L := by
      rw [mglResize_eq_extend s L c hg hlt]
    have hcap2 : (mglStringInternalResize s L c).cap = s.cap := by
      rw [mglResize_eq_extend s L c hg hlt]
    have hLcap : L + 1 ≤ s.cap := by omega
    by_cases hc : c = 0
    · have hbuf : bufBytes (mglStringInternalResize s L c) = (bufBytes s).set L 0 := by
        rw [mglResize_eq_extend s L c hg hlt]
        show ((if c ≠ 0 then _ else _) : List Nat).set L 0 = _
        rw [if_neg (by simp [hc])]
      refine ⟨⟨?_, ?_⟩, hlen2, ?_, ?_, ?_, ?_⟩
      · rw [hbuf, hcap2]; simp [hblen]
      · rw [hlen2, hcap2]; omega
      · rw [hcap2, if_neg hg]
      · rw [hbuf, mglTake_set _ _ _ _ (by omega)]
        rfl
      · intro hcc; exact absurd hc hcc
      · rw [hbuf]
        exact mglGetD_set_eq _ _ _ (by omega)
    · have hbuf : bufBytes (mglStringInternalResize s L c) =
          (bufBytes s).take s.len ++
            (List.replicate (L - s.len) c ++ ((bufBytes s).drop L).set 0 0) := by
        rw [mglResize_eq_extend s L c hg hlt]
        show ((if c ≠ 0 then _ else _) : List Nat).set L 0 = _
        rw [if_pos hc]
        rw [mglSetRange_eq _ _ _ _ (by omega) (by omega)]
        rw [List.append_assoc, List.set_append, if_neg (by rw [hA]; omega), hA]
        rw [List.set_append, if_neg (by rw [List.length_replicate]; omega),
          List.length_replicate, Nat.sub_self]
      have hdl : ((bufBytes s).drop L).length = s.cap - L := by
        rw [List.length_drop, hblen]
      refine ⟨⟨?_, ?_⟩, hlen2, ?_, ?_, ?_, ?_⟩
      · rw [hbuf, hcap2]
        simp [hA, hdl]
        omega
      · rw [hlen2, hcap2]; omega
      · rw [hcap2, if_neg hg]
      · rw [hbuf, List.take_left' hA]
        rfl
      · intro _
        rw [hbuf, List.drop_left' hA, List.take_left' (by rw [List.length_replicate])]
      · rw [hbuf, List.getD_append_right _ _ _ _ (by rw [hA]; omega), hA,
          List.getD_append_right _ _ _ _ (by rw [List.length_replicate]),
          List.length_replicate, Nat.sub_self]
        exact mglGetD_set_eq _ _ _ (by simp [hdl]; omega)

-- ***************************************************************
--      Content behaviour of the append operations
-- ***************************************************************

theorem mglStringInternalAppend_spec (s t : MGLStringInternal) (hs : MGLinv s)
    (ht : t.len ≤ (bufBytes t).length) :
    MGLinv (mglStringInternalAppend s t) ∧
    (mglStringInternalAppend s t).len = s.len + t.len ∧
    mglStringContents (mglStringInternalAppend s t) =
      mglStringContents s ++ mglStringContents t := by
  obtain ⟨hwf, hterm⟩ := hs
  by_cases h : t.len > 0
  · have hlt : s.len < s.len + t.len := by omega
    obtain ⟨⟨hrlen, hrcap⟩, hrl, _, hrtake, _, hrterm⟩ :=
      mglStringInternalResize_extend_spec s (s.len + t.len) 0 hwf hlt
    have hsrclen : ((bufBytes t).take t.len).length = t.len := by
      rw [List.length_take]; omega
    have heq : mglStringInternalAppend s t =
        { mglStringInternalResize s (s.len + t.len) 0 with
          buf := some (mglMemWrite (bufBytes (mglStringInternalResize s (s.len + t.len) 0))
            s.len ((bufBytes t).take t.len)) } := by
      unfold mglStringInternalAppend
      rw [if_pos h]
    have hLb : s.len + t.len < (bufBytes (mglStringInternalResize s (s.len + t.len) 0)).length := by
      rw [hrlen]
      omega
    have hdrop := mglMemWrite_drop (bufBytes (mglStringInternalResize s (s.len + t.len) 0))
      s.len ((bufBytes t).take t.len) (by rw [hsrclen]; omega)
    refine ⟨⟨⟨?_, ?_⟩, ?_⟩, ?_, ?_⟩
    · rw [heq]
      show (mglMemWrite _ s.len _).length = (mglStringInternalResize s (s.len + t.len) 0).cap
      rw [mglMemWrite_length, hrlen]
    · rw [heq]
      show (mglStringInternalResize s (s.len + t.len) 0).len <
        (mglStringInternalResize s (s.len + t.len) 0).cap
      omega
    · rw [heq]
      show (mglMemWrite _ s.len _).getD (mglStringInternalResize s (s.len + t.len) 0).len 0 = 0
      rw [hrl, mglMemWrite_getD_ge _ _ _ _ (by rw [hsrclen])]
      exact hrterm
    · rw [heq]
      show (mglStringInternalResize s (s.len + t.len) 0).len = s.len + t.len
      exact hrl
    · rw [heq]
      show (mglMemWrite _ s.len _).take (mglStringInternalResize s (s.len + t.len) 0).len = _
      rw [hrl, List.take_add, mglMemWrite_take, hrtake, hdrop, List.take_left' hsrclen]
      rfl
  · have h0 : t.len = 0 := by omega
    have heq : mglStringInternalAppend s t = s := by
      unfold mglStringInternalAppend
      rw [if_neg h]
    rw [heq]
    refine ⟨⟨hwf, hterm⟩, by omega, ?_⟩
    show mglStringContents s = mglStringContents s ++ (bufBytes t).take t.len
    rw [h0]
    simp

theorem mglStringInternalAppendCStr_spec (s : MGLStringInternal) (l : List Nat)
    (hs : MGLinv s) :
    MGLinv (mglStringInternalAppendCStr s l) ∧
    (mglStringInternalAppendCStr s l).len = s.len + l.length ∧
    mglStringContents (mglStringInternalAppendCStr s l) = mglStringContents s ++ l := by
  obtain ⟨hwf, hterm⟩ := hs
  by_cases h : l = []
  · subst h
    have heq : mglStringInternalAppendCStr s [] = s := by
      unfold mglStringInternalAppendCStr
      simp
    rw [heq]
    exact ⟨⟨hwf, hterm⟩, by simp, by simp⟩
  · have hlt : s.len < s.len + l.length := by
      have : l.length ≠ 0 := by simpa using h
      omega
    obtain ⟨⟨hrlen, hrcap⟩, hrl, _, hrtake, _, hrterm⟩ :=
      mglStringInternalResize_extend_spec s (s.len + l.length) 0 hwf hlt
    have heq : mglStringInternalAppendCStr s l =
        { mglStringInternalResize s (s.len + l.length) 0 with
          buf := some (mglMemWrite (bufBytes (mglStringInternalResize s (s.len + l.length) 0))
            s.len l) } := by
      unfold mglStringInternalAppendCStr
      rw [if_pos h]
    have hdrop := mglMemWrite_drop (bufBytes (mglStringInternalResize s (s.len + l.length) 0))
      s.len l (by omega)
    refine ⟨⟨⟨?_, ?_⟩, ?_⟩, ?_, ?_⟩
    · rw [heq]
      show (mglMemWrite _ s.len _).length = (mglStringInternalResize s (s.len + l.length) 0).cap
      rw [mglMemWrite_length, hrlen]
    · rw [heq]
      show (mglStringInternalResize s (s.len + l.length) 0).len <
        (mglStringInternalResize s (s.len + l.length) 0).cap
      omega
    · rw [heq]
      show (mglMemWrite _ s.len _).getD (mglStringInternalResize s (s.len + l.length) 0).len 0 = 0
      rw [hrl, mglMemWrite_getD_ge _ _ _ _ (by omega)]
      exact hrterm
    · rw [heq]
      show (mglStringInternalResize s (s.len + l.length) 0).len = s.len + l.length
      exact hrl
    · rw [heq]
      show (mglMemWrite _ s.len _).take (mglStringInternalResize s (s.len + l.length) 0).len = _
      rw [hrl, List.take_add, mglMemWrite_take, hrtake, hdrop, List.take_left' rfl]

/-- The number of bytes an `appendSub` call actually appends (0 when its
guards fail). -/
def mglAppendSubLen (t : MGLStringInternal) (off len : Nat) : Nat :=
  if t.len > off ∧ len > 0 then min len (t.len - off) else 0

theorem mglStringInternalAppendSub_spec (s t : MGLStringInternal) (off len : Nat)
    (hs : MGLinv s) (ht : t.len ≤ (bufBytes t).length) :
    MGLinv (mglStringInternalAppendSub s t off len) ∧
    (mglStringInternalAppendSub s t off len).len = s.len + mglAppendSubLen t off len ∧
    mglStringContents (mglStringInternalAppendSub s t off len) =
      mglStringContents s ++ ((mglStringContents t).drop off).take (mglAppendSubLen t off len) := by
  obtain ⟨hwf, hterm⟩ := hs
  by_cases h : t.len > off ∧ len > 0
  · have hrhs : mglAppendSubLen t off len = min len (t.len - off) := by
      unfold mglAppendSubLen
      rw [if_pos h]
    have hpos : 0 < min len (t.len - off) := by omega
    have hlt : s.len < s.len + min len (t.len - off) := by omega
    obtain ⟨⟨hrlen, hrcap⟩, hrl, _, hrtake, _, hrterm⟩ :=
      mglStringInternalResize_extend_spec s (s.len + min len (t.len - off)) 0 hwf hlt
    have hsrclen : (((bufBytes t).drop off).take (min len (t.len - off))).length =
        min len (t.len - off) := by
      rw [List.length_take, List.length_drop]
      omega
    have heq : mglStringInternalAppendSub s t off len =
        { mglStringInternalResize s (s.len + min len (t.len - off)) 0 with
          buf := some (mglMemWrite
            (bufBytes (mglStringInternalResize s (s.len + min len (t.len - off)) 0))
            s.len (((bufBytes t).drop off).take (min len (t.len - off)))) } := by
      unfold mglStringInternalAppendSub
      rw [if_pos h, if_pos hpos]
    have hdrop := mglMemWrite_drop
      (bufBytes (mglStringInternalResize s (s.len + min len (t.len - off)) 0))
      s.len (((bufBytes t).drop off).take (min len (t.len - off)))
      (by rw [hsrclen]; omega)
    have hsrc : ((mglStringContents t).drop off).take (min len (t.len - off)) =
        ((bufBytes t).drop off).take (min len (t.len - off)) := by
      unfold mglStringContents
      rw [List.drop_take, List.take_take]
      congr 1
      omega
    rw [hrhs]
    refine ⟨⟨⟨?_, ?_⟩, ?_⟩, ?_, ?_⟩
    · rw [heq]
      show (mglMemWrite _ s.len _).length =
        (mglStringInternalResize s (s.len + min len (t.len - off)) 0).cap
      rw [mglMemWrite_length, hrlen]
    · rw [heq]
      show (mglStringInternalResize s (s.len + min len (t.len - off)) 0).len <
        (mglStringInternalResize s (s.len + min len (t.len - off)) 0).cap
      omega
    · rw [heq]
      show (mglMemWrite _ s.len _).getD
        (mglStringInternalResize s (s.len + min len (t.len - off)) 0).len 0 = 0
      rw [hrl, mglMemWrite_getD_ge _ _ _ _ (by rw [hsrclen])]
      exact hrterm
    · rw [heq]
      show (mglStringInternalResize s (s.len + min len (t.len - off)) 0).len = _
      exact hrl
    · rw [heq]
      show (mglMemWrite _ s.len _).take
        (mglStringInternalResize s (s.len + min len (t.len - off)) 0).len = _
      rw [hrl, List.take_add, mglMemWrite_take, hrtake, hdrop, List.take_left' hsrclen, hsrc]
  · have hrhs : mglAppendSubLen t off len = 0 := by
      unfold mglAppendSubLen
      rw [if_neg h]
    have heq : mglStringInternalAppendSub s t off len = s := by
      unfold mglStringInternalAppendSub
      rw [if_neg h]
    rw [heq, hrhs]
    exact ⟨⟨hwf, hterm⟩, by omega, by simp⟩

/-- Content behaviour of the padding resizes (separator fill): appending
`k` copies of a nonzero fill character. -/
theorem mglPadResize_spec (s : MGLStringInternal) (k c : Nat) (hs : MGLinv s) (hc : c ≠ 0) :
    MGLinv (mglStringInternalResize s (s.len + k) c) ∧
    (mglStringInternalResize s (s.len + k) c).len = s.len + k ∧
    mglStringContents (mglStringInternalResize s (s.len + k) c) =
      mglStringContents s ++ List.replicate k c := by
  obtain ⟨hwf, hterm⟩ := hs
  by_cases hk : k = 0
  · subst hk
    rw [Nat.add_zero, mglResize_id s c (by obtain ⟨_, h2⟩ := hwf; omega)]
    exact ⟨⟨hwf, hterm⟩, by simp, by simp⟩
  · have hlt : s.len < s.len + k := by omega
    obtain ⟨⟨hrlen, hrcap⟩, hrl, _, hrtake, hrfill, hrterm⟩ :=
      mglStringInternalResize_extend_spec s (s.len + k) c hwf hlt
    refine ⟨⟨⟨hrlen, hrcap⟩, ?_⟩, hrl, ?_⟩
    · rw [hrl]
      exact hrterm
    · unfold mglStringContents
      rw [hrl, List.take_add, hrtake]
      have := hrfill hc
      rw [show s.len + k - s.len = k by omega] at this
      rw [this]
      rfl

-- ***************************************************************
--      Characterization of the character search
-- ***************************************************************

theorem mglFindCharLoop_spec (b : List Nat) (c : Nat) :
    ∀ (fuel off stop : Nat), stop - off < fuel →
    (mglFindCharLoop b c off stop fuel = MGL_STRING_NPOS ∧
      ∀ k, off ≤ k → k < stop → b.getD k 0 ≠ c) ∨
    (off ≤ mglFindCharLoop b c off stop fuel ∧ mglFindCharLoop b c off stop fuel < stop ∧
      b.getD (mglFindCharLoop b c off stop fuel) 0 = c ∧
      ∀ k, off ≤ k → k < mglFindCharLoop b c off stop fuel → b.getD k 0 ≠ c) := by
  intro fuel
  induction fuel with
  | zero => intro off stop h; omega
  | succ n ih =>
    intro off stop h
    by_cases hoff : off < stop
    · by_cases hhit : b.getD off 0 = c
      · right
        have : mglFindCharLoop b c off stop (n + 1) = off := by
          conv_lhs => unfold mglFindCharLoop
          rw [if_pos hoff, if_pos hhit]
        rw [this]
        exact ⟨le_refl _, hoff, hhit, fun k h1 h2 => by omega⟩
      · have heq : mglFindCharLoop b c off stop (n + 1) =
            mglFindCharLoop b c (off + 1) stop n := by
          conv_lhs => unfold mglFindCharLoop
          rw [if_pos hoff, if_neg hhit]
        rw [heq]
        rcases ih (off + 1) stop (by omega) with ⟨h1, h2⟩ | ⟨h1, h2, h3, h4⟩
        · left
          refine ⟨h1, fun k hk1 hk2 => ?_⟩
          rcases Nat.eq_or_lt_of_le hk1 with rfl | hk3
          · exact hhit
          · exact h2 k (by omega) hk2
        · right
          refine ⟨by omega, h2, h3, fun k hk1 hk2 => ?_⟩
          rcases Nat.eq_or_lt_of_le hk1 with rfl | hk3
          · exact hhit
          · exact h4 k (by omega) hk2
    · left
      have : mglFindCharLoop b c off stop (n + 1) = MGL_STRING_NPOS := by
        conv_lhs => unfold mglFindCharLoop
        rw [if_neg hoff]
      exact ⟨this, fun k h1 h2 => by omega⟩

/-- Reading a byte of a dropped-prefix of a `take`: it is the underlying
byte at the shifted index. -/
theorem mglGetD_drop_take (b : List Nat) (L off j : Nat) (hj : off + j < L)
    (_hb : off + j < b.length) :
    ((b.take L).drop off).getD j 0 = b.getD (off + j) 0 := by
  rw [List.getD_eq_getElem?_getD, List.getD_eq_getElem?_getD, List.getElem?_drop,
    List.getElem?_take, if_pos (by omega)]

/-- The same, phrased on the contents of a buffer. -/
theorem mglContents_drop_getD (v : MGLStringInternal) (off j : Nat)
    (hj : off + j < v.len) (hb : v.len ≤ (bufBytes v).length) :
    ((mglStringContents v).drop off).getD j 0 = (bufBytes v).getD (off + j) 0 := by
  unfold mglStringContents
  exact mglGetD_drop_take (bufBytes v) v.len off j hj (by omega)

-- ***************************************************************
--      Splitting a value at its commas (specification side)
-- ***************************************************************

/-- Split a byte list after each occurrence of `c`: each segment except
the last ends with `c`, and concatenating all segments gives back the
list. -/
def mglSplitAfter (c : Nat) : List Nat → List (List Nat)
  | [] => [[]]
  | x :: xs =>
    if x = c then [x] :: mglSplitAfter c xs
    else
      match mglSplitAfter c xs with
      | [] => [[x]]
      | st :: rest => (x :: st) :: rest

theorem mglSplitAfter_ne_nil (c : Nat) (l : List Nat) : mglSplitAfter c l ≠ [] := by
  cases l with
  | nil => simp [mglSplitAfter]
  | cons x xs =>
    unfold mglSplitAfter
    by_cases hx : x = c
    · simp [hx]
    · simp only [hx, if_false]
      rcases h : mglSplitAfter c xs with _ | ⟨st, rest⟩ <;> simp

theorem mglSplitAfter_no_sep (c : Nat) : ∀ (l : List Nat),
    (∀ j, j < l.length → l.getD j 0 ≠ c) → mglSplitAfter c l = [l] := by
  intro l
  induction l with
  | nil => intro _; rfl
  | cons x xs ih =>
    intro h
    have hx : x ≠ c := by
      have := h 0 (by simp)
      simpa using this
    unfold mglSplitAfter
    rw [if_neg hx, ih (fun j hj => by simpa using h (j + 1) (by simpa using hj))]

theorem mglSplitAfter_split (c : Nat) : ∀ (l : List Nat) (k : Nat), k < l.length →
    l.getD k 0 = c → (∀ j, j < k → l.getD j 0 ≠ c) →
    mglSplitAfter c l = (l.take (k + 1)) :: mglSplitAfter c (l.drop (k + 1)) := by
  intro l
  induction l with
  | nil => intro k hk; simp at hk
  | cons x xs ih =>
    intro k hk hck hbefore
    cases k with
    | zero =>
      have hx : x = c := by simpa using hck
      conv_lhs => unfold mglSplitAfter
      rw [if_pos hx]
      simp
    | succ k' =>
      have hx : x ≠ c := by
        have := hbefore 0 (by omega)
        simpa using this
      have hrec := ih k' (by simpa using hk) (by simpa using hck)
        (fun j hj => by simpa using hbefore (j + 1) (by omega))
      conv_lhs => unfold mglSplitAfter
      rw [if_neg hx, hrec]
      simp

-- ***************************************************************
--      Joining segments with a separator (specification side)
-- ***************************************************************

def mglJoinSep (sep : List Nat) : List (List Nat) → List Nat
  | [] => []
  | [a] => a
  | a :: b :: rest => a ++ sep ++ mglJoinSep sep (b :: rest)

theorem mglJoinSep_cons (sep : List Nat) (a : List Nat) (rest : List (List Nat))
    (h : rest ≠ []) : mglJoinSep sep (a :: rest) = a ++ sep ++ mglJoinSep sep rest := by
  cases rest with
  | nil => exact absurd rfl h
  | cons b r => rfl

-- ***************************************************************
--      Characterization of the wrapping loop (lines 2074-2092)
-- ***************************************************************

theorem mglWrapLoop_spec (fmt : MGLFormattingOptions) (cur_par cur_val : MGLStringInternal)
    (cur_spaces_len : Nat) (hsep : fmt.separator ≠ 0)
    (hval : cur_val.len ≤ (bufBytes cur_val).length) (hnpos : cur_val.len < MGL_STRING_NPOS) :
    ∀ (fuel off : Nat) (s : MGLStringInternal), MGLinv s → off ≤ cur_val.len →
      cur_val.len - off < fuel →
      MGLinv (mglWrapLoop fmt cur_par cur_val cur_spaces_len fuel s off) ∧
      mglStringContents (mglWrapLoop fmt cur_par cur_val cur_spaces_len fuel s off) =
        mglStringContents s ++
          mglJoinSep (10 :: List.replicate (cur_par.len + cur_spaces_len + 1) fmt.separator)
            (mglSplitAfter 44 ((mglStringContents cur_val).drop off)) := by
  have hclen : (mglStringContents cur_val).length = cur_val.len :=
    mglStringContents_length _ hval
  intro fuel
  induction fuel with
  | zero => intro off s _ _ h; omega
  | succ n ih =>
    intro off s hs hoffle hfuel
    by_cases hoff : off < cur_val.len
    · -- at least one byte left to emit
      have hstop : min MGL_STRING_NPOS cur_val.len = cur_val.len := by omega
      have hfind : mglStringInternalFindChar cur_val 44 off MGL_STRING_NPOS =
          mglFindCharLoop (bufBytes cur_val) 44 off cur_val.len (cur_val.len + 1) := by
        unfold mglStringInternalFindChar
        rw [hstop]
      rcases mglFindCharLoop_spec (bufBytes cur_val) 44 (cur_val.len + 1) off cur_val.len
          (by omega) with ⟨hnp, hnone⟩ | ⟨hge, hlt2, hhit, hbefore⟩
      · -- no comma in the rest: emit it wholesale and stop
        have hnposz : 0 < MGL_STRING_NPOS := by
          unfold MGL_STRING_NPOS
          norm_num
        simp only [mglWrapLoop]
        rw [if_pos hoff, hfind, hnp, if_neg (by simp)]
        obtain ⟨hinv1, hlen1, hcont1⟩ :=
          mglStringInternalAppendSub_spec s cur_val off MGL_STRING_NPOS hs hval
        have hasl : mglAppendSubLen cur_val off MGL_STRING_NPOS = cur_val.len - off := by
          unfold mglAppendSubLen
          rw [if_pos ⟨hoff, hnposz⟩]
          omega
        have hdlen : ((mglStringContents cur_val).drop off).length = cur_val.len - off := by
          rw [List.length_drop, hclen]
        have hsplit : mglSplitAfter 44 ((mglStringContents cur_val).drop off) =
            [(mglStringContents cur_val).drop off] := by
          apply mglSplitAfter_no_sep
          intro j hj
          rw [hdlen] at hj
          rw [mglContents_drop_getD cur_val off j (by omega) hval]
          exact hnone (off + j) (by omega) (by omega)
        refine ⟨hinv1, ?_⟩
        rw [hcont1, hasl, hsplit]
        rw [List.take_of_length_le (by rw [hdlen])]
        rfl
      · -- a comma was found: emit the segment, break the line, indent, loop
        set r := mglFindCharLoop (bufBytes cur_val) 44 off cur_val.len (cur_val.len + 1)
          with hrdef
        have hrne : r ≠ MGL_STRING_NPOS := by omega
        simp only [mglWrapLoop]
        rw [if_pos hoff, hfind, if_pos hrne]
        set s1 := mglStringInternalAppendSub s cur_val off (r - off + 1) with hs1def
        set s2 := mglStringInternalAppendCStr s1 [10] with hs2def
        rw [show s2.len + cur_par.len + cur_spaces_len + 1 =
          s2.len + (cur_par.len + cur_spaces_len + 1) from by omega]
        set s3 := mglStringInternalResize s2
          (s2.len + (cur_par.len + cur_spaces_len + 1)) fmt.separator with hs3def
        obtain ⟨hinv1, hlen1, hcont1⟩ :=
          mglStringInternalAppendSub_spec s cur_val off (r - off + 1) hs hval
        obtain ⟨hinv2, hlen2, hcont2⟩ := mglStringInternalAppendCStr_spec s1 [10] hinv1
        obtain ⟨hinv3, hlen3, hcont3⟩ :=
          mglPadResize_spec s2 (cur_par.len + cur_spaces_len + 1) fmt.separator hinv2 hsep
        obtain ⟨hinv4, hcont4⟩ := ih (r + 1) s3 hinv3 (by omega) (by omega)
        refine ⟨hinv4, ?_⟩
        rw [hcont4, hcont3, hcont2, hcont1]
        have hasl : mglAppendSubLen cur_val off (r - off + 1) = r - off + 1 := by
          unfold mglAppendSubLen
          rw [if_pos ⟨hoff, by omega⟩]
          omega
        have hdlen : ((mglStringContents cur_val).drop off).length = cur_val.len - off := by
          rw [List.length_drop, hclen]
        have hsplit : mglSplitAfter 44 ((mglStringContents cur_val).drop off) =
            (((mglStringContents cur_val).drop off).take (r - off + 1)) ::
              mglSplitAfter 44 (((mglStringContents cur_val).drop off).drop (r - off + 1)) := by
          apply mglSplitAfter_split
          · omega
          · rw [mglContents_drop_getD cur_val off (r - off) (by omega) hval]
            rw [show off + (r - off) = r from by omega]
            exact hhit
          · intro j hj
            rw [mglContents_drop_getD cur_val off j (by omega) hval]
            exact hbefore (off + j) (by omega) (by omega)
        have hdd : ((mglStringContents cur_val).drop off).drop (r - off + 1) =
            (mglStringContents cur_val).drop (r + 1) := by
          rw [List.drop_drop]
          congr 1
          omega
        rw [hsplit, hdd, hasl]
        rw [mglJoinSep_cons _ _ _ (mglSplitAfter_ne_nil _ _)]
        simp [List.append_assoc]
    · -- off = cur_val.len: the loop is finished
      have heq : mglWrapLoop fmt cur_par cur_val cur_spaces_len (n + 1) s off = s := by
        conv_lhs => unfold mglWrapLoop
        rw [if_neg hoff]
      rw [heq, List.drop_eq_nil_of_le (by rw [hclen]; omega)]
      exact ⟨hs, by simp [mglSplitAfter, mglJoinSep]⟩

-- ***************************************************************
--      The emitted text of one record (specification side)
-- ***************************************************************

/-- The value text a record contributes: wrapped at commas when longer
than the array limit and ending in '}' (byte 125), verbatim otherwise. -/
def mglValueText (fmt : MGLFormattingOptions) (cur_par cur_val : MGLStringInternal)
    (cur_spaces_len : Nat) : List Nat :=
  if cur_val.len > fmt.array_limit ∧ (bufBytes cur_val).getD (cur_val.len - 1) 0 = 125 then
    mglJoinSep (10 :: List.replicate (cur_par.len + cur_spaces_len + 1) fmt.separator)
      (mglSplitAfter 44 (mglStringContents cur_val))
  else mglStringContents cur_val

/-- The full line one filtered record contributes to the report: name,
separator padding up to the column width, value text, newline. -/
def mglLineFor (fmt : MGLFormattingOptions) (max_par_len : Nat)
    (cur_par cur_val : MGLStringInternal) : List Nat :=
  mglStringContents cur_par ++ List.replicate (max_par_len - cur_par.len) fmt.separator ++
    mglValueText fmt cur_par cur_val (max_par_len - cur_par.len) ++ [10]

theorem mglEmitRecord_spec (fmt : MGLFormattingOptions) (max_par_len : Nat)
    (cur_par cur_val s : MGLStringInternal) (hs : MGLinv s) (hsep : fmt.separator ≠ 0)
    (hpar : cur_par.len ≤ (bufBytes cur_par).length)
    (hval : cur_val.len ≤ (bufBytes cur_val).length)
    (hnpos : cur_val.len < MGL_STRING_NPOS) :
    MGLinv (mglEmitRecord fmt max_par_len cur_par cur_val s) ∧
    mglStringContents (mglEmitRecord fmt max_par_len cur_par cur_val s) =
      mglStringContents s ++ mglLineFor fmt max_par_len cur_par cur_val := by
  obtain ⟨hinv1, hlen1, hcont1⟩ := mglStringInternalAppend_spec s cur_par hs hpar
  simp only [mglEmitRecord]
  set s1 := mglStringInternalAppend s cur_par with hs1def
  obtain ⟨hinv2, hlen2, hcont2⟩ :=
    mglPadResize_spec s1 (max_par_len - cur_par.len) fmt.separator hinv1 hsep
  set s2 := mglStringInternalResize s1 (s1.len + (max_par_len - cur_par.len))
    fmt.separator with hs2def
  by_cases hcond : cur_val.len > fmt.array_limit ∧
      (bufBytes cur_val).getD (cur_val.len - 1) 0 = 125
  · rw [if_pos hcond]
    obtain ⟨hinv3, hcont3⟩ :=
      mglWrapLoop_spec fmt cur_par cur_val (max_par_len - cur_par.len) hsep hval hnpos
        (cur_val.len + 1) 0 s2 hinv2 (by omega) (by omega)
    set s3 := mglWrapLoop fmt cur_par cur_val (max_par_len - cur_par.len)
      (cur_val.len + 1) s2 0 with hs3def
    obtain ⟨hinv4, hlen4, hcont4⟩ := mglStringInternalAppendCStr_spec s3 [10] hinv3
    refine ⟨hinv4, ?_⟩
    rw [hcont4, hcont3, hcont2, hcont1]
    unfold mglLineFor mglValueText
    rw [if_pos hcond]
    simp [List.append_assoc]
  · rw [if_neg hcond]
    obtain ⟨hinv3, hlen3, hcont3⟩ := mglStringInternalAppend_spec s2 cur_val hinv2 hval
    set s3 := mglStringInternalAppend s2 cur_val with hs3def
    obtain ⟨hinv4, hlen4, hcont4⟩ := mglStringInternalAppendCStr_spec s3 [10] hinv3
    refine ⟨hinv4, ?_⟩
    rw [hcont4, hcont3, hcont2, hcont1]
    unfold mglLineFor mglValueText
    rw [if_neg hcond]
    simp [List.append_assoc]

-- ***************************************************************
--      The full output of mglPrintStringPairs (specification side)
-- ***************************************************************

/-- The report text predicted for a record table: one mglLineFor line for
exactly those records of the emission order that pass the filter. -/
def mglSpecOutput (out : MGLStringPairArray) (fmt : MGLFormattingOptions) : List Nat :=
  (((mglOutPermutation out fmt).filter
    (fun i => mglIncluded fmt (out.first.getD i mglZeroSlot))).map
      (fun i => mglLineFor fmt (mglMaxParLen out fmt)
        (out.first.getD i mglZeroSlot) (out.second.getD i mglZeroSlot))).flatten

theorem mglPrintStringPairs_spec (out : MGLStringPairArray) (fmt : MGLFormattingOptions)
    (hsep : fmt.separator ≠ 0)
    (hfst : ∀ t ∈ out.first, t.len ≤ (bufBytes t).length)
    (hsnd : ∀ t ∈ out.second, t.len ≤ (bufBytes t).length ∧ t.len < MGL_STRING_NPOS) :
    mglStringContents (mglPrintStringPairs out fmt) = mglSpecOutput out fmt := by
  have hp : ∀ i, (out.first.getD i mglZeroSlot).len ≤
      (bufBytes (out.first.getD i mglZeroSlot)).length := by
    intro i
    by_cases h : i < out.first.length
    · rw [List.getD_eq_getElem _ _ h]
      exact hfst _ (List.getElem_mem h)
    · rw [List.getD_eq_default _ _ (by omega)]
      exact le_refl _
  have hv : ∀ i, (out.second.getD i mglZeroSlot).len ≤
      (bufBytes (out.second.getD i mglZeroSlot)).length ∧
      (out.second.getD i mglZeroSlot).len < MGL_STRING_NPOS := by
    intro i
    by_cases h : i < out.second.length
    · rw [List.getD_eq_getElem _ _ h]
      exact hsnd _ (List.getElem_mem h)
    · rw [List.getD_eq_default _ _ (by omega)]
      refine ⟨le_refl _, ?_⟩
      unfold mglZeroSlot MGL_STRING_NPOS
      norm_num
  have hfold : ∀ (li : List Nat) (s : MGLStringInternal), MGLinv s →
      MGLinv (li.foldl (fun s i =>
        if mglIncluded fmt (out.first.getD i mglZeroSlot) then
          mglEmitRecord fmt (mglMaxParLen out fmt)
            (out.first.getD i mglZeroSlot) (out.second.getD i mglZeroSlot) s
        else s) s) ∧
      mglStringContents (li.foldl (fun s i =>
        if mglIncluded fmt (out.first.getD i mglZeroSlot) then
          mglEmitRecord fmt (mglMaxParLen out fmt)
            (out.first.getD i mglZeroSlot) (out.second.getD i mglZeroSlot) s
        else s) s) =
      mglStringContents s ++
        ((li.filter (fun i => mglIncluded fmt (out.first.getD i mglZeroSlot))).map
          (fun i => mglLineFor fmt (mglMaxParLen out fmt)
            (out.first.getD i mglZeroSlot) (out.second.getD i mglZeroSlot))).flatten := by
    intro li
    induction li with
    | nil => intro s hs; exact ⟨hs, by simp⟩
    | cons i is ih =>
      intro s hs
      by_cases hinc : mglIncluded fmt (out.first.getD i mglZeroSlot)
      · obtain ⟨hinv1, hcont1⟩ := mglEmitRecord_spec fmt (mglMaxParLen out fmt)
          (out.first.getD i mglZeroSlot) (out.second.getD i mglZeroSlot) s hs hsep
          (hp i) (hv i).1 (hv i).2
        obtain ⟨hinv2, hcont2⟩ := ih _ hinv1
        refine ⟨by simp only [List.foldl_cons, if_pos hinc]; exact hinv2, ?_⟩
        simp only [List.foldl_cons, if_pos hinc] at hcont2 ⊢
        rw [hcont2, hcont1]
        simp only [List.filter_cons]
        rw [if_pos (by simpa only [List.getD_eq_getElem?_getD] using hinc)]
        simp [List.append_assoc]
      · obtain ⟨hinv2, hcont2⟩ := ih s hs
        refine ⟨by simp only [List.foldl_cons, if_neg hinc]; exact hinv2, ?_⟩
        simp only [List.foldl_cons, if_neg hinc] at hcont2 ⊢
        rw [hcont2]
        simp only [List.filter_cons]
        rw [if_neg (by simpa only [List.getD_eq_getElem?_getD] using hinc)]
  have hinit := mglStringInternalInit_inv (mglOutCap out fmt (mglMaxParLen out fmt))
  obtain ⟨_, hcont⟩ := hfold (mglOutPermutation out fmt)
    (mglStringInternalInit (mglOutCap out fmt (mglMaxParLen out fmt))) hinit
  show mglStringContents ((mglOutPermutation out fmt).foldl _ _) = _
  rw [hcont]
  have : mglStringContents
      (mglStringInternalInit (mglOutCap out fmt (mglMaxParLen out fmt))) = [] := by
    simp [mglStringContents, mglStringInternalInit]
  rw [this, List.nil_append]
  rfl

-- ***************************************************************
--      Properties of strcmp and the comparator order
-- ***************************************************************

theorem strcmp_antisymm : ∀ (a b : List Nat), strcmp b a = -strcmp a b := by
  intro a
  induction a with
  | nil =>
    intro b
    cases b with
    | nil => simp [strcmp]
    | cons y bs =>
      simp only [strcmp]
      split_ifs <;> simp
  | cons x as ih =>
    intro b
    cases b with
    | nil =>
      simp only [strcmp]
      split_ifs <;> simp
    | cons y bs =>
      simp only [strcmp]
      by_cases hxy : x = y
      · subst hxy
        rw [if_pos rfl, if_pos rfl]
        by_cases hx0 : x = 0
        · rw [if_pos hx0, if_pos hx0]
          simp
        · rw [if_neg hx0, if_neg hx0]
          exact ih bs
      · rw [if_neg hxy, if_neg (fun hcon => hxy hcon.symm)]
        omega

theorem strcmp_nil_le (c : List Nat) : strcmp [] c ≤ 0 := by
  cases c with
  | nil => simp [strcmp]
  | cons y cs =>
    simp only [strcmp]
    split_ifs <;> omega

theorem strcmp_zero_cons_le (as c : List Nat) : strcmp (0 :: as) c ≤ 0 := by
  cases c with
  | nil => simp [strcmp]
  | cons z cs =>
    simp only [strcmp]
    by_cases h0z : (0 : Nat) = z
    · rw [if_pos h0z]
      simp
    · rw [if_neg h0z]
      omega

theorem strcmp_le_trans : ∀ (b a c : List Nat), strcmp a b ≤ 0 → strcmp b c ≤ 0 →
    strcmp a c ≤ 0 := by
  intro b
  induction b with
  | nil =>
    intro a c h1 h2
    cases a with
    | nil => exact strcmp_nil_le c
    | cons x as =>
      simp only [strcmp] at h1
      by_cases hx0 : x = 0
      · subst hx0
        exact strcmp_zero_cons_le as c
      · rw [if_neg hx0] at h1
        omega
  | cons y bs ih =>
    intro a c h1 h2
    cases a with
    | nil => exact strcmp_nil_le c
    | cons x as =>
      cases c with
      | nil =>
        simp only [strcmp] at h1 h2 ⊢
        have hy0 : y = 0 := by
          by_cases h : y = 0
          · exact h
          · rw [if_neg h] at h2
            omega
        subst hy0
        by_cases hx0 : x = 0
        · rw [if_pos hx0]
        · rw [if_neg hx0] at h1 ⊢
          omega
      | cons z cs =>
        simp only [strcmp] at h1 h2 ⊢
        by_cases hxy : x = y
        · subst hxy
          by_cases hxz : x = z
          · subst hxz
            rw [if_pos rfl] at h1 h2 ⊢
            by_cases hx0 : x = 0
            · rw [if_pos hx0]
            · rw [if_neg hx0] at h1 h2 ⊢
              exact ih as cs h1 h2
          · rw [if_pos rfl] at h1
            rw [if_neg hxz] at h2 ⊢
            exact h2
        · by_cases hyz : y = z
          · subst hyz
            rw [if_neg hxy] at h1 ⊢
            exact h1
          · rw [if_neg hxy] at h1
            rw [if_neg hyz] at h2
            by_cases hxz : x = z
            · exfalso
              omega
            · rw [if_neg hxz]
              omega

/-- The order the comparator realises on name keys: lhs sorts no later
than rhs. -/
def mglNameOrder (lhs rhs : Option (List Nat)) : Prop :=
  mglCompareOutputPair lhs rhs ≤ 0 ∨ 0 < mglCompareOutputPair rhs lhs

theorem mglNameOrder_some_iff (a b : List Nat) :
    mglNameOrder (some a) (some b) ↔ strcmp a b ≤ 0 := by
  simp only [mglNameOrder, mglCompareOutputPair]
  have := strcmp_antisymm a b
  constructor
  · intro h
    rcases h with h | h <;> omega
  · intro h
    exact Or.inl h

theorem mglNameOrder_trans (a b c : Option (List Nat)) (h1 : mglNameOrder a b)
    (h2 : mglNameOrder b c) : mglNameOrder a c := by
  cases a with
  | none =>
    cases b with
    | none =>
      cases c with
      | none => exact h1
      | some cs => exact h2
    | some bs =>
      exfalso
      simp only [mglNameOrder, mglCompareOutputPair] at h1
      omega
  | some as =>
    cases c with
    | none => exact Or.inl (by simp [mglCompareOutputPair])
    | some cs =>
      cases b with
      | none =>
        exfalso
        simp only [mglNameOrder, mglCompareOutputPair] at h2
        omega
      | some bs =>
        rw [mglNameOrder_some_iff] at h1 h2 ⊢
        exact strcmp_le_trans bs as cs h1 h2

theorem mglSortInsert_perm (key : Nat → Option (List Nat)) (i : Nat) :
    ∀ l, (mglSortInsert key i l).Perm (i :: l) := by
  intro l
  induction l with
  | nil => exact List.Perm.refl _
  | cons j js ih =>
    unfold mglSortInsert
    by_cases hc : mglCompareOutputPair (key i) (key j) ≤ 0
    · rw [if_pos hc]
    · rw [if_neg hc]
      exact (List.Perm.cons j ih).trans (List.Perm.swap i j js)

theorem mglSortInsert_pairwise (key : Nat → Option (List Nat)) (i : Nat) :
    ∀ l, List.Pairwise (fun x y => mglNameOrder (key x) (key y)) l →
    List.Pairwise (fun x y => mglNameOrder (key x) (key y)) (mglSortInsert key i l) := by
  intro l
  induction l with
  | nil =>
    intro _
    exact List.pairwise_singleton _ _
  | cons j js ih =>
    intro h
    rw [List.pairwise_cons] at h
    obtain ⟨hj, hjs⟩ := h
    unfold mglSortInsert
    by_cases hc : mglCompareOutputPair (key i) (key j) ≤ 0
    · rw [if_pos hc]
      rw [List.pairwise_cons]
      refine ⟨?_, by rw [List.pairwise_cons]; exact ⟨hj, hjs⟩⟩
      intro x hx
      rcases List.mem_cons.mp hx with rfl | hx2
      · exact Or.inl hc
      · exact mglNameOrder_trans _ _ _ (Or.inl hc) (hj x hx2)
    · rw [if_neg hc]
      rw [List.pairwise_cons]
      refine ⟨?_, ih hjs⟩
      intro x hx
      have hx2 : x ∈ i :: js := (mglSortInsert_perm key i js).mem_iff.mp hx
      rcases List.mem_cons.mp hx2 with rfl | hx3
      · exact Or.inr (by omega)
      · exact hj x hx3

theorem mglSortIndices_perm (key : Nat → Option (List Nat)) :
    ∀ l, (mglSortIndices key l).Perm l := by
  intro l
  induction l with
  | nil => exact List.Perm.refl _
  | cons x xs ih =>
    unfold mglSortIndices
    show (mglSortInsert key x (mglSortIndices key xs)).Perm (x :: xs)
    exact (mglSortInsert_perm key x _).trans (List.Perm.cons x ih)

theorem mglSortIndices_pairwise (key : Nat → Option (List Nat)) :
    ∀ l, List.Pairwise (fun x y => mglNameOrder (key x) (key y)) (mglSortIndices key l) := by
  intro l
  induction l with
  | nil => exact List.Pairwise.nil
  | cons x xs ih =>
    show List.Pairwise _ (mglSortInsert key x (mglSortIndices key xs))
    exact mglSortInsert_pairwise key x _ ih

-- ***************************************************************
--      The record table built by mglPrintRenderState
-- ***************************************************************

/-- One GL-version section of mglPrintRenderState: its headline text and
the name/value pairs it contributes. -/
structure MGLRenderStateSection where
  headline : List Nat
  pairs : List (List Nat × List Nat)

/-- Adding a run of name/value pairs (the mglNextParam* family all reduce
to mglNextParamString for the record structure: both strings InitWith'd). -/
def mglAddParams (arr : MGLStringPairArray) (pairs : List (List Nat × List Nat)) :
    MGLStringPairArray :=
  pairs.foldl (fun a p => mglNextParamString a p.1 p.2) arr

/-- One section of mglPrintRenderState: the headline is added only under
`formatting->order == MGLFormattingOrderDefault` (the guard at each of the
16 call sites, lines 2198-2855), then the section's pairs. -/
def mglAddSection (order : MGLFormattingOrder) (arr : MGLStringPairArray)
    (sec : MGLRenderStateSection) : MGLStringPairArray :=
  mglAddParams
    (if order = MGLFormattingOrderDefault then mglNextHeadline arr sec.headline else arr)
    sec.pairs

/-- The record table mglPrintRenderState (lines 2119-2868) hands to
mglPrintStringPairs: the GL 1.0 block `base` adds pairs unconditionally,
then each later GL-version section adds its guarded headline followed by
its pairs.  The concrete names and values (which come from the queried
render state) are the parameters. -/
def mglPrintRenderStateTable (order : MGLFormattingOrder)
    (base : List (List Nat × List Nat)) (sections : List MGLRenderStateSection) :
    MGLStringPairArray :=
  sections.foldl (mglAddSection order) (mglAddParams ⟨[], []⟩ base)

/-- A headline record is one whose value buffer is NULL (set by
mglStringInternalReset in mglNextHeadline, line 708). -/
def mglIsHeadlineRecord (v : MGLStringInternal) : Bool := v.buf.isNone

theorem mglAddParams_headlines (ps : List (List Nat × List Nat)) :
    ∀ (arr : MGLStringPairArray),
    ((mglAddParams arr ps).second).countP (fun v => mglIsHeadlineRecord v) =
      arr.second.countP (fun v => mglIsHeadlineRecord v) := by
  induction ps with
  | nil => intro arr; rfl
  | cons p ps ih =>
    intro arr
    show ((mglAddParams (mglNextParamString arr p.1 p.2) ps).second).countP _ = _
    rw [ih]
    unfold mglNextParamString
    rw [List.countP_append]
    simp [mglIsHeadlineRecord, mglStringInternalInitWith]

theorem mglAddSection_headlines (order : MGLFormattingOrder) (arr : MGLStringPairArray)
    (sec : MGLRenderStateSection) :
    ((mglAddSection order arr sec).second).countP (fun v => mglIsHeadlineRecord v) =
      arr.second.countP (fun v => mglIsHeadlineRecord v) +
        (if order = MGLFormattingOrderDefault then 1 else 0) := by
  unfold mglAddSection
  rw [mglAddParams_headlines]
  by_cases h : order = MGLFormattingOrderDefault
  · rw [if_pos h, if_pos h]
    unfold mglNextHeadline
    rw [List.countP_append]
    simp [mglIsHeadlineRecord, mglStringInternalReset]
  · rw [if_neg h, if_neg h]
    omega

theorem mglPrintRenderStateTable_headlines (order : MGLFormattingOrder)
    (base : List (List Nat × List Nat)) :
    ∀ (sections : List MGLRenderStateSection),
    ((mglPrintRenderStateTable order base sections).second).countP
        (fun v => mglIsHeadlineRecord v) =
      (if order = MGLFormattingOrderDefault then sections.length else 0) := by
  have hbase : ((mglAddParams ⟨[], []⟩ base).second).countP
      (fun v => mglIsHeadlineRecord v) = 0 := by
    rw [mglAddParams_headlines]
    rfl
  suffices h : ∀ (sections : List MGLRenderStateSection) (arr : MGLStringPairArray),
      ((sections.foldl (mglAddSection order) arr).second).countP
        (fun v => mglIsHeadlineRecord v) =
      arr.second.countP (fun v => mglIsHeadlineRecord v) +
        (if order = MGLFormattingOrderDefault then sections.length else 0) by
    intro sections
    unfold mglPrintRenderStateTable
    rw [h sections _, hbase]
    omega
  intro sections
  induction sections with
  | nil => intro arr; simp
  | cons sec secs ih =>
    intro arr
    show ((secs.foldl (mglAddSection order) (mglAddSection order arr sec)).second).countP _ = _
    rw [ih, mglAddSection_headlines]
    by_cases h : order = MGLFormattingOrderDefault
    · rw [if_pos h, if_pos h, if_pos h]
      simp
      omega
    · rw [if_neg h, if_neg h, if_neg h]

-- ***************************************************************
--      Characterization of the bitfield value text
-- ***************************************************************

/-- The flag texts mglNextParamBitfield appends: one entry per set bit of
`val` among bits `0..count-1` — the resolver's name for the flag, or (per
line 907) the hex form of the whole `val` when unresolved. -/
def mglBitfieldParts (val count : Nat) (proc : Nat → Option (List Nat)) : List (List Nat) :=
  (List.range count).filterMap (fun i =>
    if val &&& 2 ^ i ≠ 0 then
      some (match proc (2 ^ i) with
        | none => mglEnumToHex val
        | some s_val => s_val)
    else none)

theorem mglJoinSep_append_singleton (sep a : List Nat) : ∀ (l : List (List Nat)),
    mglJoinSep sep (l ++ [a]) =
      if l = [] then a else mglJoinSep sep l ++ sep ++ a := by
  intro l
  induction l with
  | nil => rfl
  | cons x xs ih =>
    rw [List.cons_append, mglJoinSep_cons _ _ _ (by simp), ih]
    by_cases hxs : xs = []
    · subst hxs
      simp [mglJoinSep]
    · rw [if_neg hxs, if_neg (by simp)]
      rw [mglJoinSep_cons _ _ _ hxs]
      simp [List.append_assoc]

theorem mglNextParamBitfieldVal_spec (val : Nat) (proc : Nat → Option (List Nat)) :
    ∀ count, mglStringContents (mglNextParamBitfieldVal val count proc) =
      (if mglBitfieldParts val count proc = [] then [48]
       else mglJoinSep (strBytes (" | ")) (mglBitfieldParts val count proc)) := by
  have hparts : ∀ n, mglBitfieldParts val (n + 1) proc =
      mglBitfieldParts val n proc ++
        (if val &&& 2 ^ n ≠ 0 then
          [match proc (2 ^ n) with
           | none => mglEnumToHex val
           | some s_val => s_val]
        else []) := by
    intro n
    unfold mglBitfieldParts
    rw [List.range_succ, List.filterMap_append]
    by_cases h : val &&& 2 ^ n ≠ 0
    · rw [if_pos h]
      simp only [List.filterMap_cons, List.filterMap_nil, if_pos h]
    · rw [if_neg h]
      simp only [List.filterMap_cons, List.filterMap_nil, if_neg h]
  have hfold : ∀ count,
      MGLinv ((List.range count).foldl
        (fun (p : MGLStringInternal × Nat) i =>
          let flag := 2 ^ i
          if val &&& flag ≠ 0 then
            let o1 := if p.2 > 0 then mglStringInternalAppendCStr p.1 (strBytes (" | ")) else p.1
            let o2 := match proc flag with
              | none => mglStringInternalAppendCStr o1 (mglEnumToHex val)
              | some s_val => mglStringInternalAppendCStr o1 s_val
            (o2, p.2 + 1)
          else p)
        (mglStringInternalInit 0, 0)).1 ∧
      mglStringContents ((List.range count).foldl
        (fun (p : MGLStringInternal × Nat) i =>
          let flag := 2 ^ i
          if val &&& flag ≠ 0 then
            let o1 := if p.2 > 0 then mglStringInternalAppendCStr p.1 (strBytes (" | ")) else p.1
            let o2 := match proc flag with
              | none => mglStringInternalAppendCStr o1 (mglEnumToHex val)
              | some s_val => mglStringInternalAppendCStr o1 s_val
            (o2, p.2 + 1)
          else p)
        (mglStringInternalInit 0, 0)).1 =
        mglJoinSep (strBytes (" | ")) (mglBitfieldParts val count proc) ∧
      ((List.range count).foldl
        (fun (p : MGLStringInternal × Nat) i =>
          let flag := 2 ^ i
          if val &&& flag ≠ 0 then
            let o1 := if p.2 > 0 then mglStringInternalAppendCStr p.1 (strBytes (" | ")) else p.1
            let o2 := match proc flag with
              | none => mglStringInternalAppendCStr o1 (mglEnumToHex val)
              | some s_val => mglStringInternalAppendCStr o1 s_val
            (o2, p.2 + 1)
          else p)
        (mglStringInternalInit 0, 0)).2 =
        (mglBitfieldParts val count proc).length := by
    intro count
    induction count with
    | zero =>
      refine ⟨mglStringInternalInit_inv 0, ?_, rfl⟩
      simp [mglStringContents, mglStringInternalInit, mglBitfieldParts, mglJoinSep]
    | succ n ihn =>
      obtain ⟨hinv, hcont, hlen⟩ := ihn
      rw [List.range_succ, List.foldl_append, List.foldl_cons, List.foldl_nil]
      rw [hparts n]
      by_cases h : val &&& 2 ^ n ≠ 0
      · simp only [if_pos h]
        set p := (List.range n).foldl
          (fun (p : MGLStringInternal × Nat) i =>
            let flag := 2 ^ i
            if val &&& flag ≠ 0 then
              let o1 := if p.2 > 0 then mglStringInternalAppendCStr p.1 (strBytes (" | ")) else p.1
              let o2 := match proc flag with
                | none => mglStringInternalAppendCStr o1 (mglEnumToHex val)
                | some s_val => mglStringInternalAppendCStr o1 s_val
              (o2, p.2 + 1)
            else p)
          (mglStringInternalInit 0, 0) with hpdef
        by_cases hz : (mglBitfieldParts val n proc) = []
        · have hp2 : ¬ p.2 > 0 := by
            rw [hlen, hz]
            simp
          simp only [if_neg hp2]
          rcases hproc : proc (2 ^ n) with _ | sv
          · obtain ⟨hinv2, _, hcont2⟩ :=
              mglStringInternalAppendCStr_spec p.1 (mglEnumToHex val) hinv
            refine ⟨hinv2, ?_, ?_⟩
            · rw [hcont2, hcont, hz]
              rw [mglJoinSep_append_singleton _ _ _, if_pos rfl]
              simp [mglJoinSep]
            · simp [hlen, hz]
          · obtain ⟨hinv2, _, hcont2⟩ := mglStringInternalAppendCStr_spec p.1 sv hinv
            refine ⟨hinv2, ?_, ?_⟩
            · rw [hcont2, hcont, hz]
              rw [mglJoinSep_append_singleton _ _ _, if_pos rfl]
              simp [mglJoinSep]
            · simp [hlen, hz]
        · have hp2 : p.2 > 0 := by
            rw [hlen]
            simpa [List.length_pos] using hz
          simp only [if_pos hp2]
          obtain ⟨hinvm, _, hcontm⟩ :=
            mglStringInternalAppendCStr_spec p.1 (strBytes (" | ")) hinv
          rcases hproc : proc (2 ^ n) with _ | sv
          · obtain ⟨hinv2, _, hcont2⟩ := mglStringInternalAppendCStr_spec
              (mglStringInternalAppendCStr p.1 (strBytes (" | "))) (mglEnumToHex val) hinvm
            refine ⟨hinv2, ?_, ?_⟩
            · rw [hcont2, hcontm, hcont]
              rw [mglJoinSep_append_singleton _ _ _, if_neg hz]
            · simp [hlen]
          · obtain ⟨hinv2, _, hcont2⟩ := mglStringInternalAppendCStr_spec
              (mglStringInternalAppendCStr p.1 (strBytes (" | "))) sv hinvm
            refine ⟨hinv2, ?_, ?_⟩
            · rw [hcont2, hcontm, hcont]
              rw [mglJoinSep_append_singleton _ _ _, if_neg hz]
            · simp [hlen]
      · simp only [if_neg h]
        refine ⟨hinv, ?_, ?_⟩
        · rw [hcont]
          simp
        · rw [hlen]
          simp
  intro count
  obtain ⟨hinv, hcont, hlen⟩ := hfold count
  simp only [mglNextParamBitfieldVal]
  rw [hlen]
  by_cases hz : mglBitfieldParts val count proc = []
  · rw [if_pos hz, if_pos (by simp [hz])]
    obtain ⟨_, _, hcont2⟩ := mglStringInternalAppendCStr_spec _ [48] hinv
    rw [hcont2, hcont, hz]
    simp [mglJoinSep]
  · rw [if_neg hz, if_neg (fun hcon => hz (List.length_eq_zero.mp hcon))]
    exact hcont

-- ***************************************************************
--      strstr agrees with substring containment
-- ***************************************************************

theorem mglStrstr_iff_infix : ∀ (hay needle : List Nat),
    mglStrstr hay needle = true ↔ needle <:+: hay := by
  intro hay
  induction hay with
  | nil =>
    intro needle
    cases needle with
    | nil => simp [mglStrstr]
    | cons n ns => simp [mglStrstr]
  | cons h hs ih =>
    intro needle
    cases needle with
    | nil => simp [mglStrstr]
    | cons n ns =>
      show (List.isPrefixOf (n :: ns) (h :: hs) || mglStrstr hs (n :: ns)) = true ↔ _
      rw [Bool.or_eq_true, List.isPrefixOf_iff_prefix, ih (n :: ns), List.infix_cons_iff]

-- ***************************************************************
--      Sequences of append operations (for the buffer invariant)
-- ***************************************************************

/-- One append operation on a string buffer: a whole-string append, a
substring append, or a C-string append. -/
inductive MGLAppendOp where
  | app (t : MGLStringInternal)
  | sub (t : MGLStringInternal) (off len : Nat)
  | cstr (l : List Nat)

/-- Apply one append operation. -/
def mglApplyAppendOp (s : MGLStringInternal) : MGLAppendOp → MGLStringInternal
  | .app t => mglStringInternalAppend s t
  | .sub t off len => mglStringInternalAppendSub s t off len
  | .cstr l => mglStringInternalAppendCStr s l

/-- The number of bytes an operation appends (what the source actually
copies, e.g. 0 for an out-of-range substring append). -/
def mglAppendOpLength : MGLAppendOp → Nat
  | .app t => t.len
  | .sub t off len => mglAppendSubLen t off len
  | .cstr l => l.length

/-- The operand of an operation is a sane string (its stored length lies
within its allocation); trivially true for C-string appends. -/
def mglAppendOpSrcOK : MGLAppendOp → Prop
  | .app t => t.len ≤ (bufBytes t).length
  | .sub t _ _ => t.len ≤ (bufBytes t).length
  | .cstr _ => True

instance (op : MGLAppendOp) : Decidable (mglAppendOpSrcOK op) := by
  cases op <;> unfold mglAppendOpSrcOK <;> infer_instance

theorem mglApplyAppendOp_spec (s : MGLStringInternal) (op : MGLAppendOp) (hs : MGLinv s)
    (hop : mglAppendOpSrcOK op) :
    MGLinv (mglApplyAppendOp s op) ∧
    (mglApplyAppendOp s op).len = s.len + mglAppendOpLength op := by
  cases op with
  | app t =>
    obtain ⟨h1, h2, _⟩ := mglStringInternalAppend_spec s t hs hop
    exact ⟨h1, h2⟩
  | sub t off len =>
    obtain ⟨h1, h2, _⟩ := mglStringInternalAppendSub_spec s t off len hs hop
    exact ⟨h1, h2⟩
  | cstr l =>
    obtain ⟨h1, h2, _⟩ := mglStringInternalAppendCStr_spec s l hs
    exact ⟨h1, h2⟩

theorem mglAppendOps_fold_spec : ∀ (ops : List MGLAppendOp) (s0 : MGLStringInternal),
    MGLinv s0 → (∀ op ∈ ops, mglAppendOpSrcOK op) →
    MGLinv (ops.foldl mglApplyAppendOp s0) ∧
    (ops.foldl mglApplyAppendOp s0).len = s0.len + (ops.map mglAppendOpLength).sum := by
  intro ops
  induction ops with
  | nil => intro s0 hs _; exact ⟨hs, by simp⟩
  | cons op ops ih =>
    intro s0 hs hops
    obtain ⟨h1, h2⟩ := mglApplyAppendOp_spec s0 op hs (hops op (by simp))
    obtain ⟨h3, h4⟩ := ih (mglApplyAppendOp s0 op) h1 (fun o ho => hops o (by simp [ho]))
    refine ⟨h3, ?_⟩
    rw [List.foldl_cons, h4, h2]
    simp
    omega

-- ***************************************************************
--      The shrink branch of resize, and in-place byte preservation
-- ***************************************************************

theorem mglResize_eq_shrink (s : MGLStringInternal) (L c : Nat) (hg : ¬ (L + 1 > s.cap))
    (hlt : L < s.len) (hc : s.cap > MGL_STRING_MIN_CAPACITY ∧ L < s.cap / 2) :
    mglStringInternalResize s L c =
      ⟨max MGL_STRING_MIN_CAPACITY (s.cap / 2), L,
       some ((mglMemWrite (List.replicate (max MGL_STRING_MIN_CAPACITY (s.cap / 2)) 0) 0
         ((bufBytes s).take L)).set L 0)⟩ := by
  unfold mglStringInternalResize
  rw [if_neg hg, if_pos hlt, if_pos hc]

theorem mglResize_eq_shrink_inplace (s : MGLStringInternal) (L c : Nat)
    (hg : ¬ (L + 1 > s.cap)) (hlt : L < s.len)
    (hc : ¬ (s.cap > MGL_STRING_MIN_CAPACITY ∧ L < s.cap / 2)) :
    mglStringInternalResize s L c = ⟨s.cap, s.len, some ((bufBytes s).set L 0)⟩ := by
  unfold mglStringInternalResize
  rw [if_neg hg, if_pos hlt, if_neg hc]

/-- Reading a byte of a `take`-prefix within range. -/
theorem mglGetD_take (b : List Nat) (n k : Nat) (h : k < n) :
    (b.take n).getD k 0 = b.getD k 0 := by
  rw [List.getD_eq_getElem?_getD, List.getD_eq_getElem?_getD, List.getElem?_take, if_pos h]

/-- Bytes outside `[s.len, L]` are untouched by an in-place extension. -/
theorem mglResize_extend_outside (s : MGLStringInternal) (L c : Nat) (hwf : MGLwf s)
    (hle : s.len ≤ L) (hcap : L < s.cap) :
    ∀ k, k < s.len ∨ L < k →
      (bufBytes (mglStringInternalResize s L c)).getD k 0 = (bufBytes s).getD k 0 := by
  obtain ⟨hblen, hlencap⟩ := hwf
  intro k hk
  rcases Nat.eq_or_lt_of_le hle with rfl | hlt
  · rw [mglResize_id s c (by omega)]
  · have hg : ¬ (L + 1 > s.cap) := by omega
    rw [mglResize_eq_extend s L c hg hlt]
    show ((if c ≠ 0 then mglSetRange (bufBytes s) s.len L c else bufBytes s).set L 0).getD k 0 = _
    have hkL : k ≠ L := by omega
    rw [mglGetD_set_ne _ _ _ _ hkL]
    by_cases hc : c = 0
    · rw [if_neg (by simp [hc])]
    · rw [if_pos hc]
      rw [mglSetRange_eq _ _ _ _ (by omega) (by omega), List.append_assoc]
      have htl : (List.take s.len (bufBytes s)).length = s.len := by
        rw [List.length_take]
        omega
      rcases hk with hk | hk
      · rw [List.getD_append _ _ _ _ (by rw [htl]; omega)]
        exact mglGetD_take _ _ _ hk
      · rw [List.getD_append_right _ _ _ _ (by rw [htl]; omega), htl]
        rw [List.getD_append_right _ _ _ _ (by rw [List.length_replicate]; omega),
          List.length_replicate]
        rw [List.getD_eq_getElem?_getD, List.getD_eq_getElem?_getD, List.getElem?_drop,
          show L + (k - s.len - (L - s.len)) = k from by omega]

-- ***************************************************************
--      Example tables and options for the claims
-- ***************************************************************

def mglExampleTableC1 : MGLStringPairArray :=
  mglNextParamString (mglNextParamString ⟨[], []⟩ (strBytes ("AA")) (strBytes ("1")))
    (strBytes ("B")) (strBytes ("22"))

def mglExampleTableC2 : MGLStringPairArray :=
  mglNextParamString (mglNextHeadline ⟨[], []⟩ (strBytes ("\nHEAD_LINE_LONG")))
    (strBytes ("a")) (strBytes ("1"))

def mglExampleTableC3 : MGLStringPairArray :=
  mglNextParamString (mglNextParamString ⟨[], []⟩ (strBytes ("Z")) (strBytes ("1")))
    (strBytes ("A")) (strBytes ("2"))

/-- Default options but with `order = MGLFormattingOrderSorted`. -/
def mglSortedOptions : MGLFormattingOptions :=
  ⟨32, 1, 200, MGLFormattingOrderSorted, 1, none⟩

def mglExampleTableC4 : MGLStringPairArray :=
  mglNextParamString
    (mglNextParamString ⟨[], []⟩ (strBytes ("GL_TEXTURE_BINDING_2D")) (strBytes ("5")))
    (strBytes ("GL_BLEND")) (strBytes ("GL_TRUE"))

/-- Default options but with `filter = "TEX"`. -/
def mglFilterOptionsC4 : MGLFormattingOptions :=
  ⟨32, 1, 200, MGLFormattingOrderDefault, 1, some (strBytes ("TEX"))⟩

-- ***************************************************************
--      The claims
-- ***************************************************************

/-- Claim C1: for a record table holding exactly the two non-headline
records ("AA","1") and ("B","22"), with the default options (min_gap 1,
separator ' ', insertion order, no name filter, wrap threshold 200 larger
than every value length), mglPrintStringPairs computes the column width
max(2,1) + 1 = 3 and returns exactly "AA 1\nB  22\n": each record emits
its name, then column_width minus name-length separator characters, then
its value, then a newline. -/
theorem claim_C1 :
    mglMaxParLen mglExampleTableC1 mglFormattingDefault = 3 ∧
    mglStringContents (mglPrintStringPairs mglExampleTableC1 mglFormattingDefault) =
      strBytes ("AA 1\nB  22\n") := by
  decide

/-- Claim C2 counterexample: for the table [headline "\nHEAD_LINE_LONG",
pair ("a","1")] with default options, the code measures the headline name
(column width 16 = 15 + 1, not the claimed max-non-headline 1 + 1 = 2) and
pads the headline line with a separator character, so the output differs
from the claim's prediction ("\nHEAD_LINE_LONG\n" unpadded, width 2). -/
theorem claim_C2_counterexample :
    mglStringContents (mglPrintStringPairs mglExampleTableC2 mglFormattingDefault) =
      strBytes ("\nHEAD_LINE_LONG \na               1\n") ∧
    mglStringContents (mglPrintStringPairs mglExampleTableC2 mglFormattingDefault) ≠
      strBytes ("\nHEAD_LINE_LONG\na 1\n") ∧
    mglMaxParLen mglExampleTableC2 mglFormattingDefault = 16 ∧
    mglMaxParLen mglExampleTableC2 mglFormattingDefault ≠ 2 := by
  refine ⟨by decide, by decide, by decide, by decide⟩

/-- Claim C2 (amended): headline records take part in the column-width
measurement like every other record (their stored text, leading newline
included, is measured — witnessed by the example width 16), and an
emitted headline record produces its name, then column-width minus
name-length separator characters, then a newline (its absent value
contributes no bytes). -/
theorem claim_C2 (fmt : MGLFormattingOptions) (max_par_len : Nat)
    (par s : MGLStringInternal) (hs : MGLinv s) (hsep : fmt.separator ≠ 0)
    (hpar : par.len ≤ (bufBytes par).length) :
    mglStringContents (mglEmitRecord fmt max_par_len par mglStringInternalReset s) =
      mglStringContents s ++ mglStringContents par ++
        List.replicate (max_par_len - par.len) fmt.separator ++ [10] ∧
    mglMaxParLen mglExampleTableC2 mglFormattingDefault = 16 := by
  constructor
  · obtain ⟨_, hcont⟩ := mglEmitRecord_spec fmt max_par_len par mglStringInternalReset s
      hs hsep hpar (by decide) (by decide)
    rw [hcont]
    unfold mglLineFor mglValueText
    rw [if_neg (fun hcon => Nat.not_lt_zero fmt.array_limit hcon.1)]
    simp [mglStringContents, mglStringInternalReset, bufBytes, List.append_assoc]
  · decide

theorem claim_C2_witness :
    mglStringContents (mglEmitRecord mglFormattingDefault 16
      (mglStringInternalInitWith (strBytes ("\nHEAD_LINE_LONG"))) mglStringInternalReset
      (mglStringInternalInit 0)) =
      mglStringContents (mglStringInternalInit 0) ++
        mglStringContents (mglStringInternalInitWith (strBytes ("\nHEAD_LINE_LONG"))) ++
        List.replicate (16 - (mglStringInternalInitWith (strBytes ("\nHEAD_LINE_LONG"))).len)
          mglFormattingDefault.separator ++ [10] ∧
    mglMaxParLen mglExampleTableC2 mglFormattingDefault = 16 :=
  claim_C2 mglFormattingDefault 16
    (mglStringInternalInitWith (strBytes ("\nHEAD_LINE_LONG")))
    (mglStringInternalInit 0) (by decide) (by decide) (by decide)

/-- Claim C3: with sort_order lexicographic the emission order is an index
permutation of the records (storage is never moved in the pure embedding;
only the index list is rearranged), sorted by the comparator order, which
on present names is exactly full string order (strcmp ≤ 0) and places a
missing/absent (NULL) name after every present name; in particular for the
records ("Z","1"), ("A","2") the "A" line precedes the "Z" line. -/
theorem claim_C3 :
    (∀ (key : Nat → Option (List Nat)) (l : List Nat), (mglSortIndices key l).Perm l) ∧
    (∀ (key : Nat → Option (List Nat)) (l : List Nat),
      List.Pairwise (fun i j => mglNameOrder (key i) (key j)) (mglSortIndices key l)) ∧
    (∀ a b : List Nat, mglNameOrder (some a) (some b) ↔ strcmp a b ≤ 0) ∧
    (∀ nm : List Nat, mglCompareOutputPair (some nm) none < 0 ∧
      0 < mglCompareOutputPair none (some nm)) ∧
    mglStringContents (mglPrintStringPairs mglExampleTableC3 mglSortedOptions) =
      strBytes ("A 2\nZ 1\n") := by
  refine ⟨fun key l => mglSortIndices_perm key l,
    fun key l => mglSortIndices_pairwise key l,
    fun a b => mglNameOrder_some_iff a b,
    fun nm => ⟨by simp [mglCompareOutputPair], by simp [mglCompareOutputPair]⟩,
    by decide⟩

/-- Claim C4: with a name filter set, the report text is exactly the
concatenation of the lines of those records (in emission order) whose name
passes the strstr test — records failing it contribute nothing to width
measurement or output; mglStrstr agrees with substring (infix)
containment; and for the filter "TEX" over ("GL_TEXTURE_BINDING_2D","5")
and ("GL_BLEND","GL_TRUE"), the width counts only the former (21 + 1) and
the output holds only the former's line. -/
theorem claim_C4 (out : MGLStringPairArray) (fmt : MGLFormattingOptions)
    (hsep : fmt.separator ≠ 0)
    (hfst : ∀ t ∈ out.first, t.len ≤ (bufBytes t).length)
    (hsnd : ∀ t ∈ out.second, t.len ≤ (bufBytes t).length ∧ t.len < MGL_STRING_NPOS) :
    mglStringContents (mglPrintStringPairs out fmt) = mglSpecOutput out fmt ∧
    (∀ hay needle : List Nat, mglStrstr hay needle = true ↔ needle <:+: hay) ∧
    mglMaxParLen mglExampleTableC4 mglFilterOptionsC4 = 22 ∧
    mglStringContents (mglPrintStringPairs mglExampleTableC4 mglFilterOptionsC4) =
      strBytes ("GL_TEXTURE_BINDING_2D 5\n") := by
  exact ⟨mglPrintStringPairs_spec out fmt hsep hfst hsnd,
    fun hay needle => mglStrstr_iff_infix hay needle, by decide, by decide⟩

theorem claim_C4_witness :
    mglStringContents (mglPrintStringPairs mglExampleTableC4 mglFilterOptionsC4) =
      mglSpecOutput mglExampleTableC4 mglFilterOptionsC4 ∧
    (∀ hay needle : List Nat, mglStrstr hay needle = true ↔ needle <:+: hay) ∧
    mglMaxParLen mglExampleTableC4 mglFilterOptionsC4 = 22 ∧
    mglStringContents (mglPrintStringPairs mglExampleTableC4 mglFilterOptionsC4) =
      strBytes ("GL_TEXTURE_BINDING_2D 5\n") :=
  claim_C4 mglExampleTableC4 mglFilterOptionsC4 (by decide) (by decide) (by decide)

/-- Claim C5 (code bug evidence): mglNextParamEnum's value text is chosen
by a function that never receives the formatting options, so an
unresolved enum value is rendered as the fixed-width hexadecimal form
("0x" + 8 zero-padded uppercase digits) regardless of the `enable_hex`
(hex_fallback) flag — with the flag unset the claimed plain-decimal
rendering ("255") is never produced; a resolved name is rendered as-is. -/
theorem claim_C5 :
    mglNextParamEnumValue (fun _ => none) 255 = strBytes ("0x000000FF") ∧
    mglNextParamEnumValue (fun _ => none) 255 ≠ strBytes ("255") ∧
    mglNextParamEnumValue (fun _ => some (strBytes ("GL_LINEAR"))) 9729 =
      strBytes ("GL_LINEAR") := by
  refine ⟨by decide, by decide, by decide⟩

/-- Claim C6 counterexample: for the bitfield value 3 with 2 bits tested
and a resolver that resolves nothing, the source (line 907) renders the
hex form of the WHOLE value for each unresolved set bit —
"0x00000003 | 0x00000003" — not the claimed per-bit hex forms
"0x00000001 | 0x00000002". -/
theorem claim_C6_counterexample :
    mglStringContents (mglNextParamBitfieldVal 3 2 (fun _ => none)) =
      strBytes ("0x00000003 | 0x00000003") ∧
    mglStringContents (mglNextParamBitfieldVal 3 2 (fun _ => none)) ≠
      strBytes ("0x00000001 | 0x00000002") := by
  refine ⟨by decide, by decide⟩

/-- Claim C6 (amended): the bitfield text is built by testing bits
0..N-1, joining the per-bit texts with " | ", where a set bit's text is
the resolver's name for the flag, or the hexadecimal form of the entire
bitfield value (not of the individual bit) when the resolver returns no
match; when no tested bit is set the text is exactly "0". -/
theorem claim_C6 :
    (∀ (val count : Nat) (proc : Nat → Option (List Nat)),
      mglStringContents (mglNextParamBitfieldVal val count proc) =
        (if mglBitfieldParts val count proc = [] then strBytes ("0")
         else mglJoinSep (strBytes (" | ")) (mglBitfieldParts val count proc))) ∧
    mglStringContents (mglNextParamBitfieldVal 0 4 (fun _ => none)) = strBytes ("0") := by
  constructor
  · intro val count proc
    rw [show strBytes ("0") = [48] from by decide]
    exact mglNextParamBitfieldVal_spec val proc count
  · decide

/-- Claim C7: an emitted record whose value text is longer than
array_wrap_threshold and ends with '}' has its value split after each
comma: the first segment follows the padding inline and every subsequent
segment starts a new line that is first indented with column_width + 1
separator characters (so, as each continuation segment begins with the
space that followed the comma, its element aligns under the value
column's first element), the last segment being followed by the final
newline; a record not meeting both conditions is emitted on one line. -/
theorem claim_C7 (fmt : MGLFormattingOptions) (max_par_len : Nat)
    (cur_par cur_val s : MGLStringInternal) (hs : MGLinv s) (hsep : fmt.separator ≠ 0)
    (hpar : cur_par.len ≤ (bufBytes cur_par).length)
    (hval : cur_val.len ≤ (bufBytes cur_val).length)
    (hnpos : cur_val.len < MGL_STRING_NPOS) :
    (cur_val.len > fmt.array_limit ∧ (bufBytes cur_val).getD (cur_val.len - 1) 0 = 125 →
      mglStringContents (mglEmitRecord fmt max_par_len cur_par cur_val s) =
        mglStringContents s ++ mglStringContents cur_par ++
          List.replicate (max_par_len - cur_par.len) fmt.separator ++
          mglJoinSep (10 :: List.replicate (cur_par.len + (max_par_len - cur_par.len) + 1)
            fmt.separator) (mglSplitAfter 44 (mglStringContents cur_val)) ++ [10]) ∧
    (¬ (cur_val.len > fmt.array_limit ∧ (bufBytes cur_val).getD (cur_val.len - 1) 0 = 125) →
      mglStringContents (mglEmitRecord fmt max_par_len cur_par cur_val s) =
        mglStringContents s ++ mglStringContents cur_par ++
          List.replicate (max_par_len - cur_par.len) fmt.separator ++
          mglStringContents cur_val ++ [10]) := by
  obtain ⟨_, hcont⟩ := mglEmitRecord_spec fmt max_par_len cur_par cur_val s hs hsep
    hpar hval hnpos
  constructor
  · intro hcond
    rw [hcont]
    unfold mglLineFor mglValueText
    rw [if_pos hcond]
    simp [List.append_assoc]
  · intro hcond
    rw [hcont]
    unfold mglLineFor mglValueText
    rw [if_neg hcond]
    simp [List.append_assoc]

theorem claim_C7_witness :
    mglStringContents (mglEmitRecord ⟨32, 1, 3, MGLFormattingOrderDefault, 1, none⟩ 2
      (mglStringInternalInitWith (strBytes ("N")))
      (mglStringInternalInitWith (strBytes ("\x7b 1, 2 \x7d")))
      (mglStringInternalInit 0)) = strBytes ("N \x7b 1,\n    2 \x7d\n") :=
  ((claim_C7 ⟨32, 1, 3, MGLFormattingOrderDefault, 1, none⟩ 2
    (mglStringInternalInitWith (strBytes ("N")))
    (mglStringInternalInitWith (strBytes ("\x7b 1, 2 \x7d")))
    (mglStringInternalInit 0) (by decide) (by decide) (by decide) (by decide)
    (by decide)).1 (by decide)).trans (by decide)

/-- Claim C8: starting from any buffer satisfying the invariant, after a
finite sequence of append operations (append, appendSub, appendCStr over
sane operands) the length equals the initial length plus the sum of the
appended lengths, and after every prefix of the sequence the byte at
index `len` is the null terminator. -/
theorem claim_C8 (s0 : MGLStringInternal) (ops : List MGLAppendOp) (hs : MGLinv s0)
    (hops : ∀ op ∈ ops, mglAppendOpSrcOK op) :
    (ops.foldl mglApplyAppendOp s0).len = s0.len + (ops.map mglAppendOpLength).sum ∧
    ∀ n, (bufBytes ((ops.take n).foldl mglApplyAppendOp s0)).getD
      ((ops.take n).foldl mglApplyAppendOp s0).len 0 = 0 := by
  refine ⟨(mglAppendOps_fold_spec ops s0 hs hops).2, fun n => ?_⟩
  have h := mglAppendOps_fold_spec (ops.take n) s0 hs
    (fun op hop => hops op (List.take_subset n ops hop))
  exact h.1.2

theorem claim_C8_witness :
    ((([MGLAppendOp.app (mglStringInternalInitWith (strBytes ("cd"))),
        MGLAppendOp.cstr (strBytes ("e")),
        MGLAppendOp.sub (mglStringInternalInitWith (strBytes ("xyz"))) 1 5]).foldl
      mglApplyAppendOp (mglStringInternalInitWith (strBytes ("ab")))).len =
      (mglStringInternalInitWith (strBytes ("ab"))).len +
        (([MGLAppendOp.app (mglStringInternalInitWith (strBytes ("cd"))),
           MGLAppendOp.cstr (strBytes ("e")),
           MGLAppendOp.sub (mglStringInternalInitWith (strBytes ("xyz"))) 1 5]).map
          mglAppendOpLength).sum) ∧
    ∀ n, (bufBytes ((([MGLAppendOp.app (mglStringInternalInitWith (strBytes ("cd"))),
        MGLAppendOp.cstr (strBytes ("e")),
        MGLAppendOp.sub (mglStringInternalInitWith (strBytes ("xyz"))) 1 5]).take n).foldl
        mglApplyAppendOp (mglStringInternalInitWith (strBytes ("ab"))))).getD
      ((([MGLAppendOp.app (mglStringInternalInitWith (strBytes ("cd"))),
         MGLAppendOp.cstr (strBytes ("e")),
         MGLAppendOp.sub (mglStringInternalInitWith (strBytes ("xyz"))) 1 5]).take n).foldl
        mglApplyAppendOp (mglStringInternalInitWith (strBytes ("ab")))).len 0 = 0 :=
  claim_C8 (mglStringInternalInitWith (strBytes ("ab")))
    [MGLAppendOp.app (mglStringInternalInitWith (strBytes ("cd"))),
     MGLAppendOp.cstr (strBytes ("e")),
     MGLAppendOp.sub (mglStringInternalInitWith (strBytes ("xyz"))) 1 5]
    (by decide) (by decide)

/-- Claim C9: for a well-formed buffer, resize(newLength) with
newLength + 1 > capacity sets the capacity to
max(newLength + 1, capacity * 2); a shrink (newLength < length) with
newLength < capacity / 2 and capacity > MIN_CAPACITY sets it to
max(MIN_CAPACITY, capacity / 2); and a resize with newLength in
[length, capacity) keeps the capacity and touches no byte outside
[length, newLength] — only the fill region and the moved terminator. -/
theorem claim_C9 (s : MGLStringInternal) (newLength chr : Nat) (hwf : MGLwf s) :
    (newLength + 1 > s.cap →
      (mglStringInternalResize s newLength chr).cap =
        max (newLength + 1) (s.cap * 2)) ∧
    (newLength < s.len → s.cap > MGL_STRING_MIN_CAPACITY → newLength < s.cap / 2 →
      (mglStringInternalResize s newLength chr).cap =
        max MGL_STRING_MIN_CAPACITY (s.cap / 2)) ∧
    (s.len ≤ newLength → newLength < s.cap →
      (mglStringInternalResize s newLength chr).cap = s.cap ∧
      ∀ k, k < s.len ∨ newLength < k →
        (bufBytes (mglStringInternalResize s newLength chr)).getD k 0 =
          (bufBytes s).getD k 0) := by
  obtain ⟨hblen, hlencap⟩ := hwf
  refine ⟨?_, ?_, ?_⟩
  · intro hg
    rw [mglResize_eq_grow s newLength chr hg]
  · intro h1 h2 h3
    rw [mglResize_eq_shrink s newLength chr (by omega) h1 ⟨h2, h3⟩]
  · intro h1 h2
    constructor
    · rcases Nat.eq_or_lt_of_le h1 with heq | hlt
      · rw [← heq, mglResize_id s chr (by omega)]
      · rw [mglResize_eq_extend s newLength chr (by omega) hlt]
    · exact mglResize_extend_outside s newLength chr ⟨hblen, hlencap⟩ h1 h2

theorem claim_C9_witness :
    ((mglStringInternalResize (mglStringInternalInitWith (strBytes ("abcdef"))) 20 32).cap =
      max (20 + 1) ((mglStringInternalInitWith (strBytes ("abcdef"))).cap * 2)) ∧
    ((mglStringInternalResize (mglStringInternalInitWith (strBytes ("abcdef"))) 10 32).cap =
      (mglStringInternalInitWith (strBytes ("abcdef"))).cap) :=
  ⟨(claim_C9 (mglStringInternalInitWith (strBytes ("abcdef"))) 20 32 (by decide)).1
      (by decide),
   ((claim_C9 (mglStringInternalInitWith (strBytes ("abcdef"))) 10 32 (by decide)).2.2
      (by decide) (by decide)).1⟩

/-- Claim C10: in the record table mglPrintRenderState builds, every one
of the sixteen mglNextHeadline calls is guarded by
`formatting->order == MGLFormattingOrderDefault`, and all other additions
go through the mglNextParam* family, which initializes both strings of
the record; hence with MGLFormattingOrderSorted the table contains no
headline (absent-value) record at all, and with the default order it
contains exactly one per guarded section. -/
theorem claim_C10 :
    (∀ (base : List (List Nat × List Nat)) (sections : List MGLRenderStateSection),
      ((mglPrintRenderStateTable MGLFormattingOrderSorted base sections).second).countP
        (fun v => mglIsHeadlineRecord v) = 0) ∧
    (∀ (base : List (List Nat × List Nat)) (sections : List MGLRenderStateSection),
      ((mglPrintRenderStateTable MGLFormattingOrderDefault base sections).second).countP
        (fun v => mglIsHeadlineRecord v) = sections.length) := by
  constructor
  · intro base sections
    rw [mglPrintRenderStateTable_headlines, if_neg (by decide)]
  · intro base sections
    rw [mglPrintRenderStateTable_headlines, if_pos rfl]
